import Mathlib

/-!
Verification of the MCTS search core of `ginkgo_rl/agents/mcts.py`
(`BaseMCTSAgent`, `RandomMCTSAgent`, `MCTSAgent`, `MCBSAgent`).

The agent code in `src/ginkgo_rl/agents/mcts.py` is translated faithfully into
pure Lean functions.  Mutable Python state (the search tree, the private
simulated-environment copy) is threaded explicitly.  The tree-node class
`MCTSNode` lives in `ginkgo_rl/utils/mcts.py`, which is not part of the
sources; its operations are modelled from the specification (marked
`Modelled from the spec:` below).  Rewards (log-likelihood floats in the
Python code) are modelled as integers; policy probabilities and PUCT scores
as rationals.
-/

namespace GinkgoRL

/-- Exact rational numbers as integer fractions with (by convention)
positive denominator, used for policy probabilities and PUCT scores (floats
in the Python code).  Operations avoid normalisation so that every value is
evaluable by the kernel; comparisons are by cross-multiplication, which
agrees with the rational order whenever denominators are positive — and all
fractions built by the search do have positive denominators. -/
structure Frac where
  num : Int
  den : Int
deriving DecidableEq

def Frac.ofInt (i : Int) : Frac := ⟨i, 1⟩

def Frac.add (x y : Frac) : Frac := ⟨x.num * y.den + y.num * x.den, x.den * y.den⟩

def Frac.mul (x y : Frac) : Frac := ⟨x.num * y.num, x.den * y.den⟩

/-- Division by a positive integer. -/
def Frac.divP (x : Frac) (d : Int) : Frac := ⟨x.num, x.den * d⟩

/-- Value order (for positive denominators). -/
def Frac.ltv (x y : Frac) : Bool := decide (x.num * y.den < y.num * x.den)

/-- Value equality (for positive denominators). -/
def Frac.eqv (x y : Frac) : Bool := decide (x.num * y.den = y.num * x.den)

/-- Whether the fraction's value is positive. -/
def Frac.isPos (x : Frac) : Bool := decide (0 < x.num * x.den)

def Frac.minv (x y : Frac) : Frac := if Frac.ltv x y then x else y

def Frac.maxv (x y : Frac) : Frac := if Frac.ltv x y then y else x

/-- Configuration parameters stored by `BaseMCTSAgent.__init__` (lines 16-41)
and `MCBSAgent.__init__` (lines 298-300).  The constructor stores them
verbatim. -/
structure MCTSConfig where
  nMcTarget : Int
  nMcMin : Int
  nMcMax : Int
  mctsMode : String
  cPuct : Frac
  rewardMin : Int
  rewardMax : Int
  beamSize : Int
deriving DecidableEq

/-- `BaseMCTSAgent.__init__` together with `MCBSAgent.__init__`: the
constructor body only assigns the parameters to attributes (lines 30-37 and
300); no value is inspected or validated. -/
def agentInit (nMcTarget nMcMin nMcMax : Int) (mctsMode : String) (cPuct : Frac)
    (rewardMin rewardMax : Int) (beamSize : Int) : MCTSConfig :=
  { nMcTarget := nMcTarget
    nMcMin := nMcMin
    nMcMax := nMcMax
    mctsMode := mctsMode
    cPuct := cPuct
    rewardMin := rewardMin
    rewardMax := rewardMax
    beamSize := beamSize }

/-- Validity of a configuration, written from the spec's words (§6):
"simulation-budget bounds (n_mc_min ≤ n_mc_max, positive integers),
aggregation mode ∈ \x7bmean, max\x7d, exploration constant c_puct > 0,
reward-normalization bounds (closed interval), beam width ≥ 1". -/
def validConfig (c : MCTSConfig) : Bool :=
  (0 < c.nMcMin && 0 < c.nMcMax && c.nMcMin ≤ c.nMcMax)
    && (c.mctsMode == "mean" || c.mctsMode == "max")
    && c.cPuct.isPos
    && (c.rewardMin ≤ c.rewardMax)
    && (1 ≤ c.beamSize)

/-! ### Search-tree data model

Modelled from the spec (§3): `MCTSNode` of `ginkgo_rl/utils/mcts.py` is not
among the sources.  A node stores visit count `n`, running reward sum `q`,
maximum backed-up return `qMax` (initialised to the configured minimum reward
bound), the immediate step reward `qStep` of the action leading to it, the
terminal flag, and the beam-progress marker `in_beam`.  Children are kept as
an association list keyed by action id, in insertion order (Python dict). -/

structure NodeData where
  n : Nat
  q : Int
  qMax : Int
  qStep : Int
  terminal : Bool
  inBeam : Bool
deriving DecidableEq

inductive Tree where
  | node : NodeData → List (Nat × Tree) → Tree

def Tree.data : Tree → NodeData
  | .node d _ => d

def Tree.children : Tree → List (Nat × Tree)
  | .node _ cs => cs

/-- A freshly created node (`MCTSNode.__init__`), modelled from the spec:
visit count 0, reward sum 0, `q_max` initialised to the minimum reward
bound, given immediate step reward, non-terminal, not beam-tagged. -/
def newLeaf (rewardMin stepReward : Int) : Tree :=
  .node { n := 0, q := 0, qMax := rewardMin, qStep := stepReward,
          terminal := false, inBeam := false } []

/-- Python `node.children[action]` lookup on the association list. -/
def lookupChild (cs : List (Nat × Tree)) (a : Nat) : Option Tree :=
  match cs with
  | [] => none
  | (b, t) :: rest => if a = b then some t else lookupChild rest a

/-- Node addressed by an action path from the given root (spec §3: a node's
identity is its path of actions from the root). -/
def getNode : Tree → List Nat → Option Tree
  | t, [] => some t
  | t, a :: p =>
    match lookupChild t.children a with
    | none => none
    | some c => getNode c p

/-- Rebuild the tree applying `f` to the node at `path` (how the functional
embedding renders Python's in-place mutation of one node object). -/
def modifyAt (f : Tree → Tree) : Tree → List Nat → Tree
  | t, [] => f t
  | .node d cs, a :: p =>
    .node d (cs.map fun bt => if bt.1 = a then (bt.1, modifyAt f bt.2 p) else bt)

/-- `MCTSNode.set_terminal`, modelled from the spec: stores the flag. -/
def setTerminalAt (t : Tree) (path : List Nat) (b : Bool) : Tree :=
  modifyAt (fun u => .node { u.data with terminal := b } u.children) t path

/-- Mark a node as beam-visited (`node.in_beam = True`, mcts.py line 389). -/
def setInBeamAt (t : Tree) (path : List Nat) : Tree :=
  modifyAt (fun u => .node { u.data with inBeam := true } u.children) t path

/-- `MCTSNode.expand`, modelled from the spec (§3, §4.5): attach one child per
action with the given immediate step reward; children are populated at most
once (idempotent expansion). -/
def Tree.expandNode (rewardMin : Int) (t : Tree) (acts : List (Nat × Int)) : Tree :=
  match t.children with
  | [] => .node t.data (acts.map fun ar => (ar.1, newLeaf rewardMin ar.2))
  | _ => t

def expandAt (rewardMin : Int) (t : Tree) (path : List Nat)
    (acts : List (Nat × Int)) : Tree :=
  modifyAt (fun u => u.expandNode rewardMin acts) t path

/-- One reward update of `MCTSNode.give_reward`, modelled from the spec (§3,
§4.5 backup): increment `n`, add to `q`, raise `q_max` if exceeded. -/
def giveReward (v : Int) (d : NodeData) : NodeData :=
  { d with n := d.n + 1, q := d.q + v, qMax := max d.qMax v }

/-- `node.give_reward(value, backup=True)`, modelled from the spec: the value
is propagated through the node and every ancestor up to the root. -/
def backupAt (v : Int) : Tree → List Nat → Tree
  | .node d cs, [] => .node (giveReward v d) cs
  | .node d cs, a :: p =>
    .node (giveReward v d)
      (cs.map fun bt => if bt.1 = a then (bt.1, backupAt v bt.2 p) else bt)

/-- `node.children_q_steps()`, modelled from the spec. -/
def childrenQSteps (cs : List (Nat × Tree)) : List Int :=
  cs.map fun bt => bt.2.data.qStep

/-- `node.count_beam_children()`, modelled from the spec (§4.4): how many
children are already beam-tagged. -/
def countBeamChildren (cs : List (Nat × Tree)) : Nat :=
  (cs.filter fun bt => bt.2.data.inBeam).length

/-! ### Environment interface (spec §6, an external collaborator)

`step` is deterministic and returns (next state, reward, done); `legal`
enumerates the legal actions of a state; `close` is the cheap approximate
state-equality check (`np.isclose` in `_parse_path`, line 98); `logLik` is
`sim_env._compute_log_likelihood` as used by `_parse_action` (lines 118-137),
which reads the current simulated state without stepping it. -/
structure Env (σ : Type) where
  step : σ → Nat → σ × Int × Bool
  legal : σ → List Nat
  close : σ → σ → Bool
  logLik : σ → Nat → Int

/-- The replay loop of `_parse_path` (lines 104-113): apply the actions in
order on the simulated copy, summing rewards, breaking as soon as a step
reports done.  Returns (final state, total reward, terminal flag). -/
def replay (E : Env σ) : σ → List Nat → σ × Int × Bool
  | s, [] => (s, 0, false)
  | s, a :: p =>
    let r := E.step s a
    if r.2.2 then (r.1, r.2.1, true)
    else
      let rest := replay E r.1 p
      (rest.1, r.2.1 + rest.2.1, rest.2.2)

/-- Result of `_parse_path`: the returned (tensorised) state, the cumulative
reward, the terminal flag, and the state the private simulated copy is left
in afterwards. -/
structure ParseResult (σ : Type) where
  state : σ
  totalReward : Int
  terminal : Bool
  simS : σ
deriving DecidableEq

/-- `BaseMCTSAgent._parse_path` (lines 94-116).  `realS` is `self.env.state`,
`stateArg` the `state` argument, `simS` the state of `self.sim_env` (`none`
models an unset state).  The copy is resynchronised from the real
environment exactly when its state is unset or not `close` to the real one
(line 98); then the path is replayed on the copy.  For an empty path the
`state` argument is returned unchanged (the loop body never runs). -/
def parsePath (E : Env σ) (realS stateArg : σ) (simS : Option σ)
    (path : List Nat) : ParseResult σ :=
  let start :=
    match simS with
    | none => realS
    | some s => if E.close s realS then s else realS
  let r := replay E start path
  { state := if path.isEmpty then stateArg else r.1
    totalReward := r.2.1
    terminal := r.2.2
    simS := r.1 }

/-! ### Spec-side restatement of path replay (for the refinement claim C3) -/

/-- Index of the first action whose step reports done, along a replay from
`s` (spec-side helper for C3). -/
def firstDone (E : Env σ) : σ → List Nat → Option Nat
  | _, [] => none
  | s, a :: p =>
    let r := E.step s a
    if r.2.2 then some 0 else (firstDone E r.1 p).map (· + 1)

/-- Per-step rewards along a full replay of `p` from `s` (spec-side). -/
def rewardsAlong (E : Env σ) : σ → List Nat → List Int
  | _, [] => []
  | s, a :: p =>
    let r := E.step s a
    r.2.1 :: rewardsAlong E r.1 p

/-- State after applying all of `p` from `s` (spec-side). -/
def finalState (E : Env σ) : σ → List Nat → σ
  | s, [] => s
  | s, a :: p => finalState E (E.step s a).1 p

/-- Spec-side restatement of `_parse_path`, written from the spec's words
(§4.1): "resynchronizes a private simulated-environment copy to the real
environment's internal state only when they have diverged …, then applies
each action in order, summing rewards, stopping early on termination.
Returns resulting state, cumulative reward, terminal flag."  The applied
actions are the shortest path segment up to and including the first
done-step (the whole path when no step reports done). -/
def parsePathSpec (E : Env σ) (realS stateArg : σ) (simS : Option σ)
    (path : List Nat) : ParseResult σ :=
  let start :=
    match simS with
    | none => realS
    | some s => if E.close s realS then s else realS
  let applied :=
    match firstDone E start path with
    | some i => path.take (i + 1)
    | none => path
  { state := if path.isEmpty then stateArg else finalState E start applied
    totalReward := (rewardsAlong E start applied).sum
    terminal := (firstDone E start path).isSome
    simS := finalState E start applied }

end GinkgoRL

namespace GinkgoRL

/-! ### Selection rules

All of these live on `MCTSNode` in the missing `ginkgo_rl/utils/mcts.py` and
are modelled from the spec (§4.2, §4.3, §4.4): deterministic argmax with
ties broken by lowest action id. -/

/-- Argmax over a list: highest score, ties broken by lowest id.  Returns
`none` exactly on the empty list. -/
def argmaxLowest (score : α → Frac) (id : α → Nat) : List α → Option α
  | [] => none
  | x :: xs =>
    match argmaxLowest score id xs with
    | none => some x
    | some y =>
      if (score x).ltv (score y)
          || ((score x).eqv (score y) && decide (id y < id x)) then some y
      else some x

/-- Kernel-evaluable integer square root: the largest `k` with `k² ≤ n`. -/
def intSqrtAux (n : Nat) : Nat → Nat
  | 0 => 0
  | k + 1 => if (k + 1) * (k + 1) ≤ n then k + 1 else intSqrtAux n k

/-- Square root of the parent visit count in the PUCT bonus.  Modelled from
the spec (§4.2); the real-valued square root is approximated by the integer
square root — no claim below depends on the numeric value of a PUCT score. -/
def sqrtQ (n : Nat) : Frac := Frac.ofInt (intSqrtAux n n)

/-- Clamp into the configured reward interval (spec §4.2). -/
def clampQ (lo hi x : Frac) : Frac := Frac.minv hi (Frac.maxv lo x)

/-- Reward aggregate of a child (spec §4.2): mean `q/n` in mode `"mean"`,
maximum `q_max` otherwise.  (The missing node code's smoothing of the mean
for an unvisited child is not recoverable; the fraction is taken as `q/n`.) -/
def nodeAggregate (mode : String) (d : NodeData) : Frac :=
  if mode == "mean" then ⟨d.q, (d.n : Int)⟩ else Frac.ofInt d.qMax

/-- PUCT score of one child (spec §4.2):
`clamp(aggregate, reward_min, reward_max) + c_puct · p · sqrt(parent n) / (1 + n_c)`. -/
def puctScore (cfg : MCTSConfig) (parentN : Nat) (p : Frac) (d : NodeData) : Frac :=
  Frac.add
    (clampQ (Frac.ofInt cfg.rewardMin) (Frac.ofInt cfg.rewardMax)
      (nodeAggregate cfg.mctsMode d))
    (Frac.divP (Frac.mul (Frac.mul cfg.cPuct p) (sqrtQ parentN)) (1 + (d.n : Int)))

/-- `MCTSNode.select_puct` (used at mcts.py line 180), modelled from the
spec: PUCT argmax over the children paired with their policy
probabilities. -/
def selectPuct (cfg : MCTSConfig) (probs : List Frac) (parentN : Nat)
    (cs : List (Nat × Tree)) : Option Nat :=
  (argmaxLowest (fun x => puctScore cfg parentN x.2 x.1.2.data)
      (fun x => x.1.1) (cs.zip probs)).map (fun x => x.1.1)

/-- `MCTSNode.select_greedy` (used at mcts.py line 335), modelled from the
spec (§4.3): child with the highest immediate step reward. -/
def selectGreedy (cs : List (Nat × Tree)) : Option Nat :=
  (argmaxLowest (fun x => Frac.ofInt x.2.data.qStep) (fun x => x.1) cs).map (·.1)

/-- `MCTSNode.select_best(mode="max")` (used at mcts.py line 189), modelled
from the spec (§4.5): root action with the highest `q_max`. -/
def selectBest (t : Tree) : Option Nat :=
  (argmaxLowest (fun x => Frac.ofInt x.2.data.qMax) (fun x => x.1) t.children).map (·.1)

/-! ### The MCTS orchestrator `BaseMCTSAgent._mcts` (mcts.py lines 145-195) -/

/-- How one simulate-expand-select pass ends: `finished` covers both a
terminal node and the depth cap (both proceed to backup); `emptySelect p`
records that selection was reached at node `p` with zero children (the
Python code then fails inside `_evaluate_policy` / child lookup);
`badNode` covers a dangling path (cannot arise from the root). -/
inductive PassExit where
  | finished
  | emptySelect (p : List Nat)
  | badNode (p : List Nat)
deriving DecidableEq

structure LoopResult (σ : Type) where
  tree : Tree
  simS : Option σ
  path : List Nat
  total : Int
  exit : PassExit

/-- The inner loop of one pass (`for _ in range(max_steps)`, lines 160-182):
replay the path, store the terminal flag, stop on termination, expand a
childless node from the replayed state (one child per legal action, eagerly
scoring each action's immediate reward on the simulated copy), evaluate the
policy over the children, select by PUCT and descend.  `evalP` is the
policy collaborator `_evaluate_policy` (state, candidate actions, their step
rewards ↦ probabilities). -/
def mctsLoop (cfg : MCTSConfig) (E : Env σ)
    (evalP : σ → List Nat → List Int → List Frac) (realS decState : σ) :
    Nat → Tree → Option σ → List Nat → Int → LoopResult σ
  | 0, t, sim, path, tot => ⟨t, sim, path, tot, .finished⟩
  | fuel + 1, t, sim, path, _ =>
    let pr := parsePath E realS decState sim path
    let t1 := setTerminalAt t path pr.terminal
    if pr.terminal then ⟨t1, some pr.simS, path, pr.totalReward, .finished⟩
    else
      match getNode t1 path with
      | none => ⟨t1, some pr.simS, path, pr.totalReward, .badNode path⟩
      | some nd =>
        let ndE := nd.expandNode cfg.rewardMin
          ((E.legal pr.state).map fun a => (a, E.logLik pr.simS a))
        let t2 := modifyAt (fun _ => ndE) t1 path
        match ndE.children with
        | [] => ⟨t2, some pr.simS, path, pr.totalReward, .emptySelect path⟩
        | cs =>
          let probs := evalP pr.state (cs.map (·.1)) (childrenQSteps cs)
          match selectPuct cfg probs ndE.data.n cs with
          | none => ⟨t2, some pr.simS, path, pr.totalReward, .badNode path⟩
          | some a =>
            mctsLoop cfg E evalP realS decState fuel t2 (some pr.simS)
              (path ++ [a]) pr.totalReward

structure PassResult (σ : Type) where
  tree : Tree
  simS : Option σ
  ok : Bool
  failPath : Option (List Nat)

/-- One full simulation pass (lines 155-186): run the inner loop from the
root and back up `episode_reward + total_reward` through every node of the
final path (lines 184-186).  A pass that failed mid-descent (zero-children
selection, modelling the uncaught Python error) performs no backup and
reports `ok = false` with the offending node's path. -/
def mctsPass (cfg : MCTSConfig) (E : Env σ)
    (evalP : σ → List Nat → List Int → List Frac) (realS decState : σ)
    (er : Int) (maxSteps : Nat) (t : Tree) (sim : Option σ) : PassResult σ :=
  let r := mctsLoop cfg E evalP realS decState maxSteps t sim [] 0
  match r.exit with
  | .finished => ⟨backupAt (er + r.total) r.tree r.path, r.simS, true, none⟩
  | .emptySelect p => ⟨r.tree, r.simS, false, some p⟩
  | .badNode _ => ⟨r.tree, r.simS, false, none⟩

/-- The pass loop `for i in range(n)` (line 155): runs the given number of
passes, stopping (as the uncaught Python exception would) at the first
failing pass.  Returns the tree, the simulated state, the number of
completed passes and whether all of them completed. -/
def runMcts (cfg : MCTSConfig) (E : Env σ)
    (evalP : σ → List Nat → List Int → List Frac) (realS decState : σ)
    (er : Int) (maxSteps : Nat) :
    Nat → Tree → Option σ → Nat → Tree × Option σ × Nat × Bool
  | 0, t, sim, count => (t, sim, count, true)
  | k + 1, t, sim, count =>
    let r := mctsPass cfg E evalP realS decState er maxSteps t sim
    if r.ok then
      runMcts cfg E evalP realS decState er maxSteps k r.tree r.simS (count + 1)
    else (r.tree, r.simS, count, false)

/-- The simulation budget (lines 148-152): `1` when the root has exactly one
child, else `min(max(n_mc_target · #legal − root.n, n_mc_min), n_mc_max)`. -/
def mctsNumPasses (cfg : MCTSConfig) (rootChildren legalCount rootN : Nat) : Int :=
  if rootChildren = 1 then 1
  else min (max (cfg.nMcTarget * (legalCount : Int) - (rootN : Int)) cfg.nMcMin) cfg.nMcMax

structure MctsResult (σ : Type) where
  tree : Tree
  simS : Option σ
  passes : Nat
  ok : Bool
  action : Option Nat

/-- `BaseMCTSAgent._mcts` (lines 145-195): compute the budget, run the
passes (Python's `range` runs `max(n, 0)` iterations), then select the best
root action by max-aggregation.  `state` plays the roles of both the
`state` argument and `self.env.state`. -/
def mcts (cfg : MCTSConfig) (E : Env σ)
    (evalP : σ → List Nat → List Int → List Frac) (state : σ) (er : Int)
    (maxSteps : Nat) (t : Tree) (sim : Option σ) : MctsResult σ :=
  let n := mctsNumPasses cfg t.children.length (E.legal state).length t.data.n
  let r := runMcts cfg E evalP state state er maxSteps n.toNat t sim 0
  { tree := r.1, simS := r.2.1, passes := r.2.2.1, ok := r.2.2.2,
    action := selectBest r.1 }

/-! ### `MCBSAgent._greedy` (mcts.py lines 308-341) -/

structure GreedyResult (σ : Type) where
  tree : Tree
  simS : Option σ
  finalPath : List Nat
  backups : List Int
  choices : List (List (Nat × Int) × Nat)
  ok : Bool

/-- The `while not node.terminal` loop of `_greedy`, with explicit fuel (the
Python loop has no depth cap; `ok = false` means the fuel ran out or an
internal lookup failed, `ok = true` that the loop exited through its
condition).  Each iteration replays the path, stores the terminal flag,
expands a childless non-terminal node, backs up the total reward at a
terminal node, and otherwise descends to the child with the highest
immediate step reward.  `backups` records every backed-up value and
`choices` the (children, chosen action) of every descent. -/
def greedyLoop (cfg : MCTSConfig) (E : Env σ) (realS decState : σ) (er : Int) :
    Nat → Tree → Option σ → List Nat → List Int →
    List (List (Nat × Int) × Nat) → GreedyResult σ
  | 0, t, sim, path, bks, chs => ⟨t, sim, path, bks, chs, false⟩
  | fuel + 1, t, sim, path, bks, chs =>
    match getNode t path with
    | none => ⟨t, sim, path, bks, chs, false⟩
    | some nd =>
      if nd.data.terminal then ⟨t, sim, path, bks, chs, true⟩
      else
        let pr := parsePath E realS decState sim path
        let t1 := setTerminalAt t path pr.terminal
        if pr.terminal then
          let t2 := backupAt (er + pr.totalReward) t1 path
          greedyLoop cfg E realS decState er fuel t2 (some pr.simS) path
            (bks ++ [er + pr.totalReward]) chs
        else
          match getNode t1 path with
          | none => ⟨t1, some pr.simS, path, bks, chs, false⟩
          | some nd1 =>
            let ndE := nd1.expandNode cfg.rewardMin
              ((E.legal pr.state).map fun a => (a, E.logLik pr.simS a))
            let t2 := modifyAt (fun _ => ndE) t1 path
            match selectGreedy ndE.children with
            | none => ⟨t2, some pr.simS, path, bks, chs, false⟩
            | some a =>
              greedyLoop cfg E realS decState er fuel t2 (some pr.simS)
                (path ++ [a]) bks
                (chs ++ [(ndE.children.map fun bt => (bt.1, bt.2.data.qStep), a)])

/-- `MCBSAgent._greedy` from the root. -/
def greedy (cfg : MCTSConfig) (E : Env σ) (state : σ) (er : Int) (fuel : Nat)
    (t : Tree) (sim : Option σ) : GreedyResult σ :=
  greedyLoop cfg E state state er fuel t sim [] [] []

/-! ### `MCBSAgent._beam_search` (mcts.py lines 343-396) -/

/-- Stable insertion into a list sorted by descending integer key (a new
element goes after all elements with a key at least as large, matching
Python's stable `sorted(..., reverse=True)`). -/
def insertDescBy (key : α → Int) (x : α) : List α → List α
  | [] => [x]
  | y :: ys => if key y < key x then x :: y :: ys else y :: insertDescBy key x ys

def sortDescBy (key : α → Int) : List α → List α
  | [] => []
  | x :: xs => insertDescBy key x (sortDescBy key xs)

/-- Stable insertion into a list sorted by ascending natural key. -/
def insertAscBy (key : α → Nat) (x : α) : List α → List α
  | [] => [x]
  | y :: ys => if key x < key y then x :: y :: ys else y :: insertAscBy key x ys

def sortAscBy (key : α → Nat) : List α → List α
  | [] => []
  | x :: xs => insertAscBy key x (sortAscBy key xs)

/-- `MCTSNode.select_beam_search(beam_size, exclude_beam_tagged=True)` (used
at line 383), modelled from the spec (§4.4): up to `beam_size`
not-yet-beam-tagged children, preferring the highest step reward, ties
broken by lowest action id. -/
def selectBeamSearch (beamSize : Nat) (cs : List (Nat × Tree)) : List Nat :=
  (((sortDescBy (fun bt => bt.2.data.qStep)
      (sortAscBy (fun bt => bt.1) (cs.filter fun bt => !bt.2.data.inBeam))).map
        (·.1)).take beamSize)

/-- `node.children[action].q_step` for an action known to be a child key. -/
def qStepOf (cs : List (Nat × Tree)) (a : Nat) : Int :=
  match lookupChild cs a with
  | none => 0
  | some c => c.data.qStep

/-- Accumulator for one beam round: the evolving tree and simulated state,
the entries pushed to the next frontier, the per-processed-entry child
contribution counts and the processed paths of this round. -/
structure BeamAcc (σ : Type) where
  tree : Tree
  simS : Option σ
  next : List (Int × List Nat)
  contribs : List Nat
  processed : List (List Nat)

/-- Body of `for i, (_, node) in enumerate(beam)` (lines 355-389): replay
and store the terminal flag, expand a childless non-terminal node, back up
at a terminal node, skip a node whose beam-tagged-children count already
meets `min(beam_size, #children)`, otherwise push up to `beam_size`
selected children (cumulative reward = replayed reward + child step reward)
and mark the node beam-tagged. -/
def processEntry (cfg : MCTSConfig) (E : Env σ) (realS decState : σ) (er : Int)
    (beamSize : Nat) (acc : BeamAcc σ) (entry : Int × List Nat) : BeamAcc σ :=
  let path := entry.2
  match getNode acc.tree path with
  | none =>
    { acc with contribs := acc.contribs ++ [0], processed := acc.processed ++ [path] }
  | some _ =>
    let pr := parsePath E realS decState acc.simS path
    let t1 := setTerminalAt acc.tree path pr.terminal
    match getNode t1 path with
    | none =>
      { tree := t1
        simS := some pr.simS
        next := acc.next
        contribs := acc.contribs ++ [0]
        processed := acc.processed ++ [path] }
    | some nd1 =>
      let ndE := if pr.terminal then nd1
        else nd1.expandNode cfg.rewardMin
          ((E.legal pr.state).map fun a => (a, E.logLik pr.simS a))
      let t2 := modifyAt (fun _ => ndE) t1 path
      let t3 := if pr.terminal then backupAt (er + pr.totalReward) t2 path else t2
      let cs := ndE.children
      if min beamSize cs.length ≤ countBeamChildren cs then
        { tree := t3, simS := some pr.simS, next := acc.next,
          contribs := acc.contribs ++ [0], processed := acc.processed ++ [path] }
      else
        let sel := selectBeamSearch beamSize cs
        { tree := setInBeamAt t3 path, simS := some pr.simS,
          next := acc.next ++ sel.map (fun a => (pr.totalReward + qStepOf cs a, path ++ [a])),
          contribs := acc.contribs ++ [sel.length],
          processed := acc.processed ++ [path] }

/-- Diagnostic record of one beam round: the paths of the processed
frontier, the per-entry contribution counts, the raw next frontier and the
entries kept after the global top-`beam_size` cut. -/
structure RoundRecord where
  paths : List (List Nat)
  contribs : List Nat
  next : List (Int × List Nat)
  kept : List (Int × List Nat)

structure BeamResult (σ : Type) where
  tree : Tree
  simS : Option σ
  trace : List RoundRecord
  beamExit : List (Int × List Nat)
  nextExit : List (Int × List Nat)
  ok : Bool

/-- The `while beam or next_beam` loop (lines 354-394), with explicit fuel
(`ok = false` means fuel ran out mid-search): process every frontier entry,
then keep only the globally best `beam_size` next-frontier entries, sorted
by cumulative reward (stable, descending), and reset the next frontier. -/
def beamLoop (cfg : MCTSConfig) (E : Env σ) (realS decState : σ) (er : Int)
    (beamSize : Nat) :
    Nat → Tree → Option σ → List (Int × List Nat) → List (Int × List Nat) →
    List RoundRecord → BeamResult σ
  | 0, t, sim, beam, nextB, trace => ⟨t, sim, trace, beam, nextB, false⟩
  | fuel + 1, t, sim, beam, nextB, trace =>
    if beam.isEmpty && nextB.isEmpty then ⟨t, sim, trace, beam, nextB, true⟩
    else
      let acc := beam.foldl (processEntry cfg E realS decState er beamSize)
        ⟨t, sim, [], [], []⟩
      let kept := (sortDescBy (fun x => x.1) acc.next).take beamSize
      beamLoop cfg E realS decState er beamSize fuel acc.tree acc.simS kept []
        (trace ++ [⟨beam.map (·.2), acc.contribs, acc.next, kept⟩])

/-- `MCBSAgent._beam_search`: the loop started on the frontier
`[(episode_reward, root)]` (line 346). -/
def beamSearch (cfg : MCTSConfig) (E : Env σ) (state : σ) (er : Int)
    (beamSize fuel : Nat) (t : Tree) (sim : Option σ) : BeamResult σ :=
  beamLoop cfg E state state er beamSize fuel t sim [(er, [])] [] []

/-! ### Agent-level state (for the frame claim C4)

The agent owns the real environment (`self.env`, summarised by its current
state), the private simulated copy (`self.sim_env`), the search tree
(`self.mcts_head`) and the episode reward.  Each search operation is the
corresponding method with `self` threaded explicitly; the real environment
state is only ever read. -/

structure AgentState (σ : Type) where
  realS : σ
  simS : Option σ
  tree : Tree
  episodeReward : Int

def agentParsePath (E : Env σ) (st : AgentState σ) (path : List Nat) :
    AgentState σ × σ × Int × Bool :=
  let pr := parsePath E st.realS st.realS st.simS path
  ({ st with simS := some pr.simS }, pr.state, pr.totalReward, pr.terminal)

def agentMcts (cfg : MCTSConfig) (E : Env σ)
    (evalP : σ → List Nat → List Int → List Frac) (st : AgentState σ) :
    AgentState σ × Nat × Bool × Option Nat :=
  let r := mcts cfg E evalP st.realS st.episodeReward 1000 st.tree st.simS
  ({ st with tree := r.tree, simS := r.simS }, r.passes, r.ok, r.action)

def agentGreedy (cfg : MCTSConfig) (E : Env σ) (fuel : Nat) (st : AgentState σ) :
    AgentState σ × GreedyResult σ :=
  let r := greedyLoop cfg E st.realS st.realS st.episodeReward fuel st.tree st.simS [] [] []
  ({ st with tree := r.tree, simS := r.simS }, r)

def agentBeamSearch (cfg : MCTSConfig) (E : Env σ) (fuel : Nat) (st : AgentState σ) :
    AgentState σ × BeamResult σ :=
  let r := beamSearch cfg E st.realS st.episodeReward cfg.beamSize.toNat fuel st.tree st.simS
  ({ st with tree := r.tree, simS := r.simS }, r)


/-- A node-data predicate holding at every node of the tree. -/
inductive AllNodes (P : NodeData → Prop) : Tree → Prop
  | node {d : NodeData} {cs : List (Nat × Tree)} :
      P d → (∀ bt ∈ cs, AllNodes P bt.2) → AllNodes P (.node d cs)

/-- A recorded greedy decision is correct: the chosen action appears among
the recorded (action, step-reward) pairs with a step reward at least as
large as every other child's (spec §4.3). -/
def GreedyChoiceOK (e : List (Nat × Int) × Nat) : Prop :=
  ∃ q, (e.2, q) ∈ e.1 ∧ ∀ x ∈ e.1, x.2 ≤ q


/-- Every node's children are keyed by pairwise-distinct actions (spec §3:
`children` is a mapping action → child). -/
inductive KeysNodup : Tree → Prop
  | node {d : NodeData} {cs : List (Nat × Tree)} :
      (cs.map (fun bt => bt.1)).Nodup → (∀ bt ∈ cs, KeysNodup bt.2) →
      KeysNodup (.node d cs)

/-- The per-round bookkeeping facts of C6: every contribution count is at
most the beam width, and the retained frontier is the top slice (by
cumulative reward) of the stable descending sort of the raw next frontier —
hence bounded by the beam width, drawn from the next frontier, and
dominating every dropped entry. -/
def TraceOK (bs : Nat) (trace : List RoundRecord) : Prop :=
  ∀ rec ∈ trace,
    (∀ c ∈ rec.contribs, c ≤ bs)
      ∧ rec.kept = (sortDescBy (fun x => x.1) rec.next).take bs
      ∧ rec.kept.length ≤ bs
      ∧ ∀ x ∈ rec.kept, x ∈ rec.next ∧ ∀ y ∈ rec.next, y ∈ rec.kept ∨ y.1 ≤ x.1

/-! ### Small concrete instances used to evaluate the development -/

/-- A small concrete environment: states count the steps taken; every action
moves `s` to `s + 1` with reward `-1`; a step taken from `s ≥ 1` reports
done (so every trajectory ends after two steps); three legal actions
everywhere; exact state comparison; the log-likelihood of action `a` is
`-a`. -/
def wEnv : Env Nat :=
  { step := fun s _ => (s + 1, -1, decide (1 ≤ s))
    legal := fun _ => [0, 1, 2]
    close := fun s t => s == t
    logLik := fun _ a => -(a : Int) }

/-- A uniform policy collaborator. -/
def wEval : Nat → List Nat → List Int → List Frac :=
  fun _ keys _ => keys.map fun _ => ⟨1, 3⟩

/-- The default configuration of `BaseMCTSAgent.__init__` with mode `"max"`
and `c_puct = 1`. -/
def wCfg : MCTSConfig := agentInit 5 5 100 "max" (Frac.ofInt 1) (-200) 0 10

/-- A fresh root, as created by `_init_episode` (line 142). -/
def wRoot : Tree := newLeaf (-200) 0

/-- A root with exactly one child (the no-choice situation of C2). -/
def wRootOne : Tree :=
  Tree.node
    { n := 0, q := 0, qMax := -200, qStep := 0, terminal := false, inBeam := false }
    [(0, newLeaf (-200) (-1))]

/-- An environment with zero legal actions everywhere and no termination
signal: the degenerate-search condition of C8. -/
def zEnv : Env Unit :=
  { step := fun _ _ => ((), 0, false)
    legal := fun _ => []
    close := fun _ _ => true
    logLik := fun _ _ => 0 }

def zEval : Unit → List Nat → List Int → List Frac := fun _ _ _ => []

/-- An environment in which every step immediately reports done — the
underlying state is already terminal (used for C10). -/
def dEnv : Env Nat :=
  { step := fun s _ => (s, -1, true)
    legal := fun _ => [0, 1]
    close := fun s t => s == t
    logLik := fun _ a => -(a : Int) }

/-! ### C3: `_parse_path` refines its specification -/

theorem replay_spec (E : Env σ) : ∀ (p : List Nat) (s : σ),
    replay E s p =
      ((match firstDone E s p with
        | some i => finalState E s (p.take (i + 1))
        | none => finalState E s p),
       (match firstDone E s p with
        | some i => (rewardsAlong E s (p.take (i + 1))).sum
        | none => (rewardsAlong E s p).sum),
       (firstDone E s p).isSome)
  | [], s => by
      simp [replay, firstDone, finalState, rewardsAlong]
  | a :: p, s => by
      have ih := replay_spec E p (E.step s a).1
      by_cases h : (E.step s a).2.2
      · simp [replay, firstDone, finalState, rewardsAlong, h]
      · simp only [replay, firstDone, h, if_neg, Bool.false_eq_true, ite_false, ih]
        cases hfd : firstDone E (E.step s a).1 p with
        | none =>
            simp [hfd, rewardsAlong, finalState]
        | some i =>
            simp [hfd, rewardsAlong, finalState, List.take]

/-- C3: for every action path, `_parse_path` resynchronises the private
simulated copy from the real environment exactly when the copy's state is
unset or not approximately equal to the real state, then applies the path's
actions in order on the copy, returning the resulting state, the sum of the
per-step rewards over the applied segment, and a terminal flag, stopping
early at the first step reporting done: the source translation `parsePath`
coincides with the spec-side restatement `parsePathSpec` on all inputs. -/
theorem c3_parse_path_refines_spec (E : Env σ) (realS stateArg : σ)
    (simS : Option σ) (path : List Nat) :
    parsePath E realS stateArg simS path = parsePathSpec E realS stateArg simS path := by
  unfold parsePath parsePathSpec
  generalize (match simS with
              | none => realS
              | some s => if E.close s realS then s else realS) = start
  have h := replay_spec E path start
  cases hfd : firstDone E start path with
  | none => simp only [h, hfd]
  | some i => simp only [h, hfd]

/-! ### C9: configuration is stored without validation -/

/-- C9 counterexample: constructing an agent with an invalid aggregation
mode, non-monotonic budget bounds, non-positive `c_puct` and beam width 0
succeeds and stores exactly these values; no configuration error is raised
at construction time (the constructed configuration violates `validConfig`).
This contradicts the claim that such errors are reported eagerly. -/
theorem c9_counterexample :
    validConfig (agentInit 5 10 2 "bogus" (Frac.ofInt (-1)) (-200) 0 0) = false
      ∧ (agentInit 5 10 2 "bogus" (Frac.ofInt (-1)) (-200) 0 0).mctsMode = "bogus"
      ∧ (agentInit 5 10 2 "bogus" (Frac.ofInt (-1)) (-200) 0 0).nMcMin = 10
      ∧ (agentInit 5 10 2 "bogus" (Frac.ofInt (-1)) (-200) 0 0).nMcMax = 2
      ∧ (agentInit 5 10 2 "bogus" (Frac.ofInt (-1)) (-200) 0 0).cPuct = Frac.ofInt (-1)
      ∧ (agentInit 5 10 2 "bogus" (Frac.ofInt (-1)) (-200) 0 0).beamSize = 0 := by
  refine ⟨by decide, rfl, rfl, rfl, by norm_num [agentInit], rfl⟩

/-- C9 (amended): `BaseMCTSAgent.__init__` / `MCBSAgent.__init__` perform no
validation at all: every parameter combination — including invalid
aggregation modes, non-monotonic or non-positive budget bounds,
non-positive `c_puct` and beam width < 1 — is accepted and stored verbatim
in the agent's attributes. -/
theorem c9_init_stores_unvalidated (nMcTarget nMcMin nMcMax : Int)
    (mctsMode : String) (cPuct : Frac) (rewardMin rewardMax beamSize : Int) :
    (agentInit nMcTarget nMcMin nMcMax mctsMode cPuct rewardMin rewardMax beamSize).nMcTarget = nMcTarget
      ∧ (agentInit nMcTarget nMcMin nMcMax mctsMode cPuct rewardMin rewardMax beamSize).nMcMin = nMcMin
      ∧ (agentInit nMcTarget nMcMin nMcMax mctsMode cPuct rewardMin rewardMax beamSize).nMcMax = nMcMax
      ∧ (agentInit nMcTarget nMcMin nMcMax mctsMode cPuct rewardMin rewardMax beamSize).mctsMode = mctsMode
      ∧ (agentInit nMcTarget nMcMin nMcMax mctsMode cPuct rewardMin rewardMax beamSize).cPuct = cPuct
      ∧ (agentInit nMcTarget nMcMin nMcMax mctsMode cPuct rewardMin rewardMax beamSize).rewardMin = rewardMin
      ∧ (agentInit nMcTarget nMcMin nMcMax mctsMode cPuct rewardMin rewardMax beamSize).rewardMax = rewardMax
      ∧ (agentInit nMcTarget nMcMin nMcMax mctsMode cPuct rewardMin rewardMax beamSize).beamSize = beamSize :=
  ⟨rfl, rfl, rfl, rfl, rfl, rfl, rfl, rfl⟩

/-! ### C7: the random agent's log-probability report -/

/-- `RandomMCTSAgent._evaluate_policy` (mcts.py lines 224-229), translated
with Python call semantics.  In the `action is not None` branch the body
computes `torch.tensor(1. / len(legal_actions), dtype=self.dtype)` but the
statement lacks a `return`, so the call returns `None` (modelled as
`Except.ok none`).  In the other branch a uniform probability vector is
returned; `len(legal_actions) = 0` there raises `ZeroDivisionError`
(modelled as `Except.error`). -/
def randomEvaluatePolicy (legalActions : List Nat) (action : Option Nat) :
    Except String (Option (ℚ ⊕ List ℚ)) :=
  match action with
  | some _ => .ok none
  | none =>
    if legalActions.length = 0 then .error "ZeroDivisionError"
    else .ok (some (.inr (legalActions.map fun _ => 1 / (legalActions.length : ℚ))))

/-- C7 (code bug): when `_mcts` re-evaluates the policy at the root to
report the chosen action's log-probability (line 190), the random agent's
`_evaluate_policy` with `action` given returns `None` instead of the
probability `1/len(legal_actions)` — the branch computes the value but never
returns it — so the returned `info` cannot contain the chosen action's
log-probability (`torch.log(None)` fails).  Concretely, with legal actions
`[0, 1, 2]` and chosen action `1` the call returns `None`. -/
theorem c7_random_policy_returns_none :
    randomEvaluatePolicy [0, 1, 2] (some 1) = .ok none
      ∧ randomEvaluatePolicy [0, 1, 2] none
          = .ok (some (.inr [1/3, 1/3, 1/3])) := by
  constructor
  · rfl
  · simp [randomEvaluatePolicy]


/-! ### C1 and C2: the simulation budget -/

theorem runMcts_ok_passes (cfg : MCTSConfig) (E : Env σ)
    (evalP : σ → List Nat → List Int → List Frac) (realS decState : σ)
    (er : Int) (maxSteps : Nat) :
    ∀ (k : Nat) (t : Tree) (sim : Option σ) (count : Nat),
      (runMcts cfg E evalP realS decState er maxSteps k t sim count).2.2.2 = true →
      (runMcts cfg E evalP realS decState er maxSteps k t sim count).2.2.1 = count + k
  | 0, t, sim, count, _ => rfl
  | k + 1, t, sim, count, h => by
    unfold runMcts at h ⊢
    by_cases hok :
        (mctsPass cfg E evalP realS decState er maxSteps t sim).ok = true
    · simp only [hok, if_true] at h ⊢
      rw [runMcts_ok_passes cfg E evalP realS decState er maxSteps k _ _ _ h]
      omega
    · simp only [Bool.not_eq_true] at hok
      simp [hok] at h

/-- C1: when the root does not have exactly one child, the number of
simulation passes executed by `_mcts` equals
`min(max(n_mc_target · #legal_actions(root state) − root.n, n_mc_min), n_mc_max)`
(under positive configured budget bounds, and provided no pass aborts with
an uncaught error). -/
theorem c1_mcts_pass_count (cfg : MCTSConfig) (E : Env σ)
    (evalP : σ → List Nat → List Int → List Frac) (state : σ) (er : Int)
    (t : Tree) (sim : Option σ)
    (hne : t.children.length ≠ 1)
    (hok : (mcts cfg E evalP state er 1000 t sim).ok = true)
    (hmin : 0 < cfg.nMcMin) (hmax : 0 < cfg.nMcMax) :
    ((mcts cfg E evalP state er 1000 t sim).passes : Int)
      = min (max (cfg.nMcTarget * ((E.legal state).length : Int) - (t.data.n : Int))
            cfg.nMcMin) cfg.nMcMax := by
  have hn : mctsNumPasses cfg t.children.length (E.legal state).length t.data.n
      = min (max (cfg.nMcTarget * ((E.legal state).length : Int) - (t.data.n : Int))
          cfg.nMcMin) cfg.nMcMax := by
    unfold mctsNumPasses
    rw [if_neg hne]
  have hpos : 0 < mctsNumPasses cfg t.children.length (E.legal state).length t.data.n := by
    rw [hn]
    have h1 : (0:Int) < max (cfg.nMcTarget * ((E.legal state).length : Int) - (t.data.n : Int)) cfg.nMcMin :=
      lt_of_lt_of_le hmin (le_max_right _ _)
    exact lt_min h1 hmax
  unfold mcts at hok ⊢
  simp only at hok ⊢
  rw [runMcts_ok_passes cfg E evalP state state er 1000 _ t sim 0 hok]
  simp only [Nat.zero_add]
  rw [Int.toNat_of_nonneg hpos.le, hn]

/-- C1 witness: with the default configuration (`n_mc_target = 5`,
`n_mc_min = 5`, `n_mc_max = 100`), a fresh root and three legal actions,
exactly `min(max(5·3 − 0, 5), 100) = 15` passes are run. -/
theorem c1_witness :
    wRoot.children.length ≠ 1
      ∧ (mcts wCfg wEnv wEval 0 0 1000 wRoot none).ok = true
      ∧ (0:Int) < wCfg.nMcMin ∧ (0:Int) < wCfg.nMcMax
      ∧ ((mcts wCfg wEnv wEval 0 0 1000 wRoot none).passes : Int)
          = min (max (wCfg.nMcTarget * ((wEnv.legal 0).length : Int) - (wRoot.data.n : Int))
              wCfg.nMcMin) wCfg.nMcMax
      ∧ (mcts wCfg wEnv wEval 0 0 1000 wRoot none).passes = 15 := by
  have hne : wRoot.children.length ≠ 1 := by decide
  have hok : (mcts wCfg wEnv wEval 0 0 1000 wRoot none).ok = true := by decide
  exact ⟨hne, hok, by decide, by decide,
    c1_mcts_pass_count wCfg wEnv wEval 0 0 wRoot none hne hok (by decide) (by decide),
    by decide⟩

/-- C2: when the root has exactly one child, `_mcts` executes exactly one
simulation pass, never the full clamped budget (provided the single pass
completes). -/
theorem c2_single_child_single_pass (cfg : MCTSConfig) (E : Env σ)
    (evalP : σ → List Nat → List Int → List Frac) (state : σ) (er : Int)
    (t : Tree) (sim : Option σ)
    (hone : t.children.length = 1)
    (hok : (mcts cfg E evalP state er 1000 t sim).ok = true) :
    (mcts cfg E evalP state er 1000 t sim).passes = 1 := by
  have hn : mctsNumPasses cfg t.children.length (E.legal state).length t.data.n = 1 := by
    unfold mctsNumPasses
    rw [if_pos hone]
  unfold mcts at hok ⊢
  simp only at hok ⊢
  rw [runMcts_ok_passes cfg E evalP state state er 1000 _ t sim 0 hok]
  rw [hn]
  rfl

/-- C2 witness: a root with exactly one child runs exactly one pass even
though the clamped budget would be `min(max(5·3 − 0, 5), 100) = 15`. -/
theorem c2_witness :
    wRootOne.children.length = 1
      ∧ (mcts wCfg wEnv wEval 0 0 1000 wRootOne none).ok = true
      ∧ (mcts wCfg wEnv wEval 0 0 1000 wRootOne none).passes = 1
      ∧ mctsNumPasses wCfg 0 (wEnv.legal 0).length wRootOne.data.n = 15 := by
  have hone : wRootOne.children.length = 1 := by decide
  have hok : (mcts wCfg wEnv wEval 0 0 1000 wRootOne none).ok = true := by decide
  exact ⟨hone, hok,
    c2_single_child_single_pass wCfg wEnv wEval 0 0 wRootOne none hone hok,
    by decide⟩


/-! ### Basic tree lemmas -/

theorem lookupChild_map_ite (g : Tree → Tree) (a : Nat) :
    ∀ cs : List (Nat × Tree),
      lookupChild (cs.map fun bt => if bt.1 = a then (bt.1, g bt.2) else bt) a
        = (lookupChild cs a).map g
  | [] => rfl
  | (b, t) :: rest => by
    have ih := lookupChild_map_ite g a rest
    by_cases h : b = a
    · subst h
      simp only [List.map_cons]
      simp [lookupChild]
    · have ha : ¬ a = b := fun hh => h hh.symm
      simp only [List.map_cons]
      rw [if_neg h]
      simp [lookupChild, ha, ih]

theorem getNode_modifyAt (f : Tree → Tree) :
    ∀ (p : List Nat) (t : Tree),
      getNode (modifyAt f t p) p = (getNode t p).map f
  | [], t => by simp [modifyAt, getNode]
  | a :: p, t => by
    cases t with
    | node d cs =>
      simp only [modifyAt, getNode, Tree.children]
      rw [lookupChild_map_ite (fun c => modifyAt f c p) a cs]
      cases h : lookupChild cs a with
      | none => rfl
      | some c => simp [getNode_modifyAt f p c]

theorem modifyAt_cons_data (f : Tree → Tree) (t : Tree) (a : Nat) (p : List Nat) :
    (modifyAt f t (a :: p)).data = t.data := by
  cases t
  rfl

theorem modifyAt_nil (f : Tree → Tree) (t : Tree) : modifyAt f t [] = f t := by
  cases t
  rfl

theorem backupAt_nil (v : Int) (t : Tree) :
    backupAt v t [] = Tree.node (giveReward v t.data) t.children := by
  cases t
  rfl

theorem backupAt_data_terminal (v : Int) (t : Tree) (p : List Nat) :
    (backupAt v t p).data.terminal = t.data.terminal := by
  cases t
  cases p <;> rfl

theorem backupAt_data_inBeam (v : Int) (t : Tree) (p : List Nat) :
    (backupAt v t p).data.inBeam = t.data.inBeam := by
  cases t
  cases p <;> rfl

theorem expandNode_data (rm : Int) (t : Tree) (acts : List (Nat × Int)) :
    (t.expandNode rm acts).data = t.data := by
  cases t with
  | node d cs => cases cs <;> rfl

/-! ### C4: the real environment is never mutated by the search core -/

/-- C4: no operation of the search core — path replay, a full MCTS
decision, greedy expansion, beam search — changes the real environment
component of the agent state; every environment step during search is taken
on the privately owned simulated copy (the only environment the translated
operations ever step).  In this functional rendering of the Python code the
real state is only read, never rebuilt. -/
theorem c4_search_preserves_real_env (cfg : MCTSConfig) (E : Env σ)
    (evalP : σ → List Nat → List Int → List Frac) (st : AgentState σ)
    (path : List Nat) (fuel : Nat) :
    (agentParsePath E st path).1.realS = st.realS
      ∧ (agentMcts cfg E evalP st).1.realS = st.realS
      ∧ (agentGreedy cfg E fuel st).1.realS = st.realS
      ∧ (agentBeamSearch cfg E fuel st).1.realS = st.realS :=
  ⟨rfl, rfl, rfl, rfl⟩


/-! ### C8: a non-terminal node with zero legal actions is not normalised -/

theorem mctsLoop_emptySelect (cfg : MCTSConfig) (E : Env σ)
    (evalP : σ → List Nat → List Int → List Frac) (realS decState : σ)
    (p : List Nat) :
    ∀ (fuel : Nat) (t : Tree) (sim : Option σ) (path : List Nat) (tot : Int),
      (mctsLoop cfg E evalP realS decState fuel t sim path tot).exit
          = PassExit.emptySelect p →
      ∃ u, getNode (mctsLoop cfg E evalP realS decState fuel t sim path tot).tree p
            = some u
        ∧ u.data.terminal = false ∧ u.children = []
  | 0, t, sim, path, tot => by
    intro h
    simp [mctsLoop] at h
  | fuel + 1, t, sim, path, tot => by
    simp only [mctsLoop]
    split
    · intro h
      simp at h
    · rename_i hterm
      rw [Bool.not_eq_true] at hterm
      simp only [hterm]
      split
      · intro h
        simp at h
      · rename_i nd heq
        split
        · rename_i hcs
          intro h
          have h2 : PassExit.emptySelect path = PassExit.emptySelect p := h
          have hp : path = p := by cases h2 ; rfl
          subst hp
          refine ⟨_, ?_, ?_, hcs⟩
          · show getNode (modifyAt _ (setTerminalAt t path false) path) path = _
            rw [getNode_modifyAt, heq]
            rfl
          · rw [expandNode_data]
            rw [setTerminalAt, getNode_modifyAt] at heq
            cases hw : getNode t path with
            | none => rw [hw] at heq ; simp at heq
            | some w =>
              rw [hw] at heq
              injection heq with heq2
              subst heq2
              rfl
        · rename_i c cs2 hcs
          split
          · intro h
            simp at h
          · exact mctsLoop_emptySelect cfg E evalP realS decState p fuel _ _ _ _


/-- C8 (amended): a simulation pass that reaches a non-terminal node with
zero legal actions does NOT normalise the condition: the node is left
non-terminal and childless, no backup happens, and the pass fails
mid-search at the policy-evaluation/selection step (in the Python code an
uncaught `ZeroDivisionError`, `TypeError` or empty-batch error inside
`_evaluate_policy`, since `_mcts` lines 179-182 run unconditionally after
expansion). -/
theorem c8_zero_actions_fail (cfg : MCTSConfig) (E : Env σ)
    (evalP : σ → List Nat → List Int → List Frac) (realS decState : σ)
    (er : Int) (ms : Nat) (t : Tree) (sim : Option σ) (p : List Nat)
    (h : (mctsPass cfg E evalP realS decState er ms t sim).failPath = some p) :
    (mctsPass cfg E evalP realS decState er ms t sim).ok = false
      ∧ ∃ u, getNode (mctsPass cfg E evalP realS decState er ms t sim).tree p = some u
          ∧ u.data.terminal = false ∧ u.children = [] := by
  simp only [mctsPass] at h ⊢
  cases hx : (mctsLoop cfg E evalP realS decState ms t sim [] 0).exit with
  | finished =>
    rw [hx] at h
    have h2 : (none : Option (List Nat)) = some p := h
    simp at h2
  | emptySelect q =>
    rw [hx] at h
    have h2 : some q = some p := h
    have hqp : q = p := by injection h2
    subst hqp
    exact ⟨rfl, mctsLoop_emptySelect cfg E evalP realS decState q ms t sim [] 0 hx⟩
  | badNode q =>
    rw [hx] at h
    have h2 : (none : Option (List Nat)) = some p := h
    simp at h2

/-- C8 counterexample: in an environment whose states are never reported
done but have zero legal actions, the very first pass reaches the
non-terminal root, expands it to zero children, and then fails
(`ok = false`, offending path recorded) — the root is left non-terminal and
childless instead of being treated as terminal.  This refutes the claim
that the core normalises the condition defensively rather than failing
mid-search. -/
theorem c8_counterexample :
    (mctsPass wCfg zEnv zEval () () 0 1000 (newLeaf (-200) 0) none).ok = false
      ∧ (mctsPass wCfg zEnv zEval () () 0 1000 (newLeaf (-200) 0) none).failPath
          = some []
      ∧ ((mctsPass wCfg zEnv zEval () () 0 1000 (newLeaf (-200) 0) none).tree).data.terminal
          = false
      ∧ ((mctsPass wCfg zEnv zEval () () 0 1000 (newLeaf (-200) 0) none).tree).children.isEmpty
          = true := by
  refine ⟨?_, ?_, ?_, ?_⟩ <;> decide

/-- C8 witness: the amended theorem applied to the concrete degenerate
environment. -/
theorem c8_witness :
    (mctsPass wCfg zEnv zEval () () 0 1000 (newLeaf (-200) 0) none).failPath = some []
      ∧ ((mctsPass wCfg zEnv zEval () () 0 1000 (newLeaf (-200) 0) none).ok = false
        ∧ ∃ u, getNode (mctsPass wCfg zEnv zEval () () 0 1000 (newLeaf (-200) 0) none).tree []
              = some u
            ∧ u.data.terminal = false ∧ u.children = []) :=
  ⟨by decide,
    c8_zero_actions_fail wCfg zEnv zEval () () 0 1000 (newLeaf (-200) 0) none []
      (by decide)⟩


/-! ### C10: empty-path replay and the root terminal flag -/

theorem mctsLoop_root_data (cfg : MCTSConfig) (E : Env σ)
    (evalP : σ → List Nat → List Int → List Frac) (realS decState : σ) :
    ∀ (fuel : Nat) (t : Tree) (sim : Option σ) (a : Nat) (p' : List Nat) (tot : Int),
      ((mctsLoop cfg E evalP realS decState fuel t sim (a :: p') tot).tree).data = t.data
  | 0, t, sim, a, p', tot => rfl
  | fuel + 1, t, sim, a, p', tot => by
    simp only [mctsLoop]
    split
    · exact modifyAt_cons_data _ t a p'
    · split
      · exact modifyAt_cons_data _ t a p'
      · split
        · show (modifyAt _ (setTerminalAt t (a :: p') _) (a :: p')).data = t.data
          rw [modifyAt_cons_data]
          exact modifyAt_cons_data _ t a p'
        · split
          · show (modifyAt _ (setTerminalAt t (a :: p') _) (a :: p')).data = t.data
            rw [modifyAt_cons_data]
            exact modifyAt_cons_data _ t a p'
          · rename_i b hsel
            show ((mctsLoop cfg E evalP realS decState fuel _ _ (a :: (p' ++ [b])) _).tree).data
              = t.data
            rw [mctsLoop_root_data cfg E evalP realS decState fuel _ _ a (p' ++ [b]) _]
            rw [modifyAt_cons_data]
            exact modifyAt_cons_data _ t a p'

theorem mctsPass_root_terminal (cfg : MCTSConfig) (E : Env σ)
    (evalP : σ → List Nat → List Int → List Frac) (realS decState : σ)
    (er : Int) (ms : Nat) (t : Tree) (sim : Option σ) :
    ((mctsPass cfg E evalP realS decState er (ms + 1) t sim).tree).data.terminal
      = false := by
  have hterm : (parsePath E realS decState sim ([] : List Nat)).terminal = false := rfl
  have hloop :
      ((mctsLoop cfg E evalP realS decState (ms + 1) t sim [] 0).tree).data.terminal
        = false := by
    simp only [mctsLoop, hterm, Bool.false_eq_true, if_false, getNode]
    split
    · show (modifyAt _ (setTerminalAt t [] false) ([] : List Nat)).data.terminal = false
      rw [modifyAt_nil, expandNode_data, setTerminalAt, modifyAt_nil]
      rfl
    · split
      · show (modifyAt _ (setTerminalAt t [] false) ([] : List Nat)).data.terminal = false
        rw [modifyAt_nil, expandNode_data, setTerminalAt, modifyAt_nil]
        rfl
      · rename_i a hsel
        show ((mctsLoop cfg E evalP realS decState ms _ _ ([] ++ [a]) _).tree).data.terminal
          = false
        rw [show ([] : List Nat) ++ [a] = a :: [] from rfl]
        rw [mctsLoop_root_data]
        show (modifyAt _ (setTerminalAt t [] false) ([] : List Nat)).data.terminal = false
        rw [modifyAt_nil, expandNode_data, setTerminalAt, modifyAt_nil]
        rfl
  simp only [mctsPass]
  cases hx : (mctsLoop cfg E evalP realS decState (ms + 1) t sim [] 0).exit with
  | finished =>
    show (backupAt _ (mctsLoop cfg E evalP realS decState (ms + 1) t sim [] 0).tree
        (mctsLoop cfg E evalP realS decState (ms + 1) t sim [] 0).path).data.terminal = false
    rw [backupAt_data_terminal]
    exact hloop
  | emptySelect q => exact hloop
  | badNode q => exact hloop


theorem getNode_nil (t : Tree) : getNode t [] = some t := rfl

theorem setTerminalAt_cons_terminal (t : Tree) (a : Nat) (p : List Nat) (b : Bool) :
    (setTerminalAt t (a :: p) b).data.terminal = t.data.terminal := by
  rw [show (setTerminalAt t (a :: p) b).data = t.data from modifyAt_cons_data _ t a p]

theorem setInBeamAt_data_terminal (t : Tree) (p : List Nat) :
    (setInBeamAt t p).data.terminal = t.data.terminal := by
  cases p with
  | nil =>
    rw [setInBeamAt, modifyAt_nil]
    rfl
  | cons a p' =>
    rw [show (setInBeamAt t (a :: p')).data = t.data from modifyAt_cons_data _ t a p']

theorem greedyLoop_root_terminal_cons (cfg : MCTSConfig) (E : Env σ)
    (realS decState : σ) (er : Int) :
    ∀ (fuel : Nat) (t : Tree) (sim : Option σ) (a : Nat) (p' : List Nat)
      (bks : List Int) (chs : List (List (Nat × Int) × Nat)),
      ((greedyLoop cfg E realS decState er fuel t sim (a :: p') bks chs).tree).data.terminal
        = t.data.terminal
  | 0, t, sim, a, p', bks, chs => rfl
  | fuel + 1, t, sim, a, p', bks, chs => by
    simp only [greedyLoop]
    split
    · rfl
    · split
      · rfl
      · split
        · rw [greedyLoop_root_terminal_cons cfg E realS decState er fuel _ _ a p' _ _]
          rw [backupAt_data_terminal]
          exact setTerminalAt_cons_terminal t a p' _
        · split
          · exact setTerminalAt_cons_terminal t a p' _
          · split
            · show ((modifyAt _ (setTerminalAt t (a :: p') _) (a :: p')).data).terminal
                = t.data.terminal
              rw [modifyAt_cons_data]
              exact setTerminalAt_cons_terminal t a p' _
            · rename_i b hsel
              show ((greedyLoop cfg E realS decState er fuel _ _ ((a :: p') ++ [b]) _ _).tree).data.terminal
                = t.data.terminal
              rw [show (a :: p') ++ [b] = a :: (p' ++ [b]) from rfl]
              rw [greedyLoop_root_terminal_cons cfg E realS decState er fuel _ _ a (p' ++ [b]) _ _]
              show ((modifyAt _ (setTerminalAt t (a :: p') _) (a :: p')).data).terminal
                = t.data.terminal
              rw [modifyAt_cons_data]
              exact setTerminalAt_cons_terminal t a p' _

theorem greedy_root_nonterminal (cfg : MCTSConfig) (E : Env σ) (s : σ) (er : Int)
    (fuel : Nat) (t : Tree) (sim : Option σ) (hroot : t.data.terminal = false) :
    ((greedy cfg E s er fuel t sim).tree).data.terminal = false := by
  cases fuel with
  | zero => exact hroot
  | succ fuel =>
    have hterm : (parsePath E s s sim ([] : List Nat)).terminal = false := rfl
    simp only [greedy, greedyLoop, getNode_nil, hroot, Bool.false_eq_true, if_false,
      hterm]
    split
    · show (modifyAt _ (setTerminalAt t [] false) ([] : List Nat)).data.terminal = false
      rw [modifyAt_nil, expandNode_data, setTerminalAt, modifyAt_nil]
      rfl
    · rename_i b hsel
      show ((greedyLoop cfg E s s er fuel _ _ ([] ++ [b]) _ _).tree).data.terminal = false
      rw [show ([] : List Nat) ++ [b] = b :: [] from rfl]
      rw [greedyLoop_root_terminal_cons]
      show (modifyAt _ (setTerminalAt t [] false) ([] : List Nat)).data.terminal = false
      rw [modifyAt_nil, expandNode_data, setTerminalAt, modifyAt_nil]
      rfl


theorem processEntry_root_terminal (cfg : MCTSConfig) (E : Env σ)
    (realS decState : σ) (er : Int) (bs : Nat) (acc : BeamAcc σ)
    (entry : Int × List Nat) (h : acc.tree.data.terminal = false) :
    ((processEntry cfg E realS decState er bs acc entry).tree).data.terminal = false := by
  rcases entry with ⟨r0, path⟩
  cases path with
  | nil =>
    have hterm : (parsePath E realS decState acc.simS ([] : List Nat)).terminal = false := rfl
    simp only [processEntry, getNode_nil, hterm, Bool.false_eq_true, if_false]
    split
    · show (modifyAt _ (setTerminalAt acc.tree [] false) ([] : List Nat)).data.terminal = false
      rw [modifyAt_nil, expandNode_data, setTerminalAt, modifyAt_nil]
      rfl
    · rw [setInBeamAt_data_terminal]
      show (modifyAt _ (setTerminalAt acc.tree [] false) ([] : List Nat)).data.terminal = false
      rw [modifyAt_nil, expandNode_data, setTerminalAt, modifyAt_nil]
      rfl
  | cons a p' =>
    have hbase : ∀ (f : Tree → Tree) (b : Bool),
        ((modifyAt f (setTerminalAt acc.tree (a :: p') b) (a :: p')).data).terminal
          = false := by
      intro f b
      rw [modifyAt_cons_data]
      exact (setTerminalAt_cons_terminal acc.tree a p' _).trans h
    simp only [processEntry]
    split
    · exact h
    · split
      · exact (setTerminalAt_cons_terminal acc.tree a p' _).trans h
      · split
        · split
          · rw [backupAt_data_terminal]
            exact hbase _ _
          · rw [setInBeamAt_data_terminal, backupAt_data_terminal]
            exact hbase _ _
        · split
          · exact hbase _ _
          · rw [setInBeamAt_data_terminal]
            exact hbase _ _

theorem foldl_processEntry_root (cfg : MCTSConfig) (E : Env σ)
    (realS decState : σ) (er : Int) (bs : Nat) :
    ∀ (l : List (Int × List Nat)) (acc : BeamAcc σ),
      acc.tree.data.terminal = false →
      ((l.foldl (processEntry cfg E realS decState er bs) acc).tree).data.terminal = false
  | [], _, h => h
  | e :: l, acc, h =>
    foldl_processEntry_root cfg E realS decState er bs l _
      (processEntry_root_terminal cfg E realS decState er bs acc e h)

theorem beamLoop_root (cfg : MCTSConfig) (E : Env σ) (realS decState : σ)
    (er : Int) (bs : Nat) :
    ∀ (fuel : Nat) (t : Tree) (sim : Option σ) (beam nextB : List (Int × List Nat))
      (trace : List RoundRecord),
      t.data.terminal = false →
      ((beamLoop cfg E realS decState er bs fuel t sim beam nextB trace).tree).data.terminal
        = false
  | 0, t, sim, beam, nextB, trace, h => h
  | fuel + 1, t, sim, beam, nextB, trace, h => by
    simp only [beamLoop]
    split
    · exact h
    · exact beamLoop_root cfg E realS decState er bs fuel _ _ _ _ _
        (foldl_processEntry_root cfg E realS decState er bs beam ⟨t, sim, [], [], []⟩ h)

/-- C10: replaying the empty path performs no environment step and returns
cumulative reward `0` with terminal flag `false`; consequently every
traversal that visits the root — an MCTS pass, a greedy expansion started
at a non-terminal root, a beam search — leaves the root marked non-terminal
via `set_terminal(False)`, for every environment, including one whose
current state is already terminal. -/
theorem c10_empty_path_and_root_flag (cfg : MCTSConfig) (E : Env σ)
    (evalP : σ → List Nat → List Int → List Frac) (realS stateArg : σ)
    (sim : Option σ) (er : Int) (t : Tree) (ms fuel bs : Nat)
    (hroot : t.data.terminal = false) :
    (parsePath E realS stateArg sim []).totalReward = 0
      ∧ (parsePath E realS stateArg sim []).terminal = false
      ∧ ((mctsPass cfg E evalP realS stateArg er (ms + 1) t sim).tree).data.terminal = false
      ∧ ((greedy cfg E realS er fuel t sim).tree).data.terminal = false
      ∧ ((beamSearch cfg E realS er bs fuel t sim).tree).data.terminal = false :=
  ⟨rfl, rfl,
    mctsPass_root_terminal cfg E evalP realS stateArg er ms t sim,
    greedy_root_nonterminal cfg E realS er fuel t sim hroot,
    beamLoop_root cfg E realS realS er bs fuel t sim [(er, [])] [] [] hroot⟩

/-- C10 witness: in an environment whose every step immediately reports
done (the current state is already terminal), the empty-path replay still
reports reward `0` and non-terminal, and an MCTS pass, a greedy expansion
and a beam search all leave the fresh root marked non-terminal. -/
theorem c10_witness :
    wRoot.data.terminal = false
      ∧ ((parsePath dEnv 0 0 none []).totalReward = 0
        ∧ (parsePath dEnv 0 0 none []).terminal = false
        ∧ ((mctsPass wCfg dEnv wEval 0 0 0 (999 + 1) wRoot none).tree).data.terminal = false
        ∧ ((greedy wCfg dEnv 0 0 5 wRoot none).tree).data.terminal = false
        ∧ ((beamSearch wCfg dEnv 0 0 10 5 wRoot none).tree).data.terminal = false) :=
  ⟨by decide,
    c10_empty_path_and_root_flag wCfg dEnv wEval 0 0 none 0 wRoot 999 5 10 (by decide)⟩


/-! ### C5: greedy expansion terminates with a correctly backed-up path -/

theorem getNode_backupAt (v : Int) :
    ∀ (p : List Nat) (t : Tree),
      getNode (backupAt v t p) p
        = (getNode t p).map (fun u => Tree.node (giveReward v u.data) u.children)
  | [], t => by
    cases t
    simp [backupAt, getNode, Tree.data, Tree.children]
  | a :: p, t => by
    cases t with
    | node d cs =>
      show getNode (Tree.node (giveReward v d)
        (cs.map fun bt => if bt.1 = a then (bt.1, backupAt v bt.2 p) else bt)) (a :: p) = _
      simp only [getNode, Tree.children]
      rw [lookupChild_map_ite (fun c => backupAt v c p) a cs]
      cases h : lookupChild cs a with
      | none => rfl
      | some c =>
        simp only [h]
        show getNode (backupAt v c p) p = _
        rw [getNode_backupAt v p c]
        rfl

theorem getNode_append (a : Nat) :
    ∀ (p : List Nat) (t : Tree),
      getNode t (p ++ [a])
        = (getNode t p).bind (fun u => lookupChild u.children a)
  | [], t => by
    simp only [List.nil_append, getNode_nil, Option.bind]
    cases h : lookupChild t.children a with
    | none => simp [getNode, h]
    | some c => simp [getNode, h, getNode_nil]
  | b :: p, t => by
    simp only [List.cons_append, getNode]
    cases h : lookupChild t.children b with
    | none => rfl
    | some c => exact getNode_append a p c

theorem lookupChild_isSome_of_mem (a : Nat) (u : Tree) :
    ∀ cs : List (Nat × Tree), (a, u) ∈ cs → (lookupChild cs a).isSome
  | [], h => by simp at h
  | (b, w) :: rest, h => by
    by_cases hab : a = b
    · simp [lookupChild, hab]
    · simp only [lookupChild, if_neg hab]
      rcases List.mem_cons.mp h with h1 | h1
      · exact absurd (congrArg Prod.fst h1) hab
      · exact lookupChild_isSome_of_mem a u rest h1

theorem lookupChild_mem (a : Nat) :
    ∀ (cs : List (Nat × Tree)) (c : Tree), lookupChild cs a = some c → (a, c) ∈ cs
  | [], c, h => by simp [lookupChild] at h
  | (b, w) :: rest, c, h => by
    by_cases hab : a = b
    · subst hab
      simp only [lookupChild, eq_self_iff_true, if_true, Option.some.injEq] at h
      subst h
      exact List.mem_cons_self _ _
    · simp only [lookupChild, if_neg hab] at h
      exact List.mem_cons_of_mem _ (lookupChild_mem a rest c h)

theorem AllNodes_getNode (P : NodeData → Prop) :
    ∀ (p : List Nat) (t : Tree) (u : Tree),
      AllNodes P t → getNode t p = some u → AllNodes P u
  | [], t, u, ha, h => by
    rw [getNode_nil] at h
    cases h
    exact ha
  | a :: p, t, u, ha, h => by
    cases ha with
    | node hd hcs =>
      simp only [getNode, Tree.children] at h
      cases hl : lookupChild _ a with
      | none => rw [hl] at h ; cases h
      | some c =>
        rw [hl] at h
        exact AllNodes_getNode P p c u (hcs (a, c) (lookupChild_mem a _ c hl)) h


theorem replay_measure (E : Env σ) (mu : σ → Nat)
    (H1 : ∀ (st : σ) (a : Nat), (E.step st a).2.2 = true ∨ mu (E.step st a).1 < mu st) :
    ∀ (p : List Nat) (s0 : σ),
      (replay E s0 p).2.2 = false → p.length + mu ((replay E s0 p).1) ≤ mu s0
  | [], s0, _ => by simp [replay]
  | a :: p, s0, h => by
    simp only [replay] at h ⊢
    by_cases hd : (E.step s0 a).2.2 = true
    · simp [hd] at h
    · rw [Bool.not_eq_true] at hd
      simp only [hd, Bool.false_eq_true, if_false] at h ⊢
      have hih := replay_measure E mu H1 p (E.step s0 a).1 h
      have hlt : mu (E.step s0 a).1 < mu s0 := by
        rcases H1 s0 a with h1 | h1
        · rw [h1] at hd ; cases hd
        · exact h1
      simp only [List.length_cons]
      omega

theorem parsePath_start (E : Env σ) (s d : σ) (sim : Option σ) (p : List Nat)
    (H3 : ∀ u v, E.close u v = true → u = v) :
    parsePath E s d sim p = parsePath E s d none p := by
  unfold parsePath
  cases sim with
  | none => rfl
  | some v =>
    by_cases hc : E.close v s = true
    · have hv := H3 v s hc
      subst hv
      simp [hc]
    · rw [Bool.not_eq_true] at hc
      simp [hc]

theorem AllNodes_modifyAt (P : NodeData → Prop) (f : Tree → Tree)
    (hf : ∀ u, AllNodes P u → AllNodes P (f u)) :
    ∀ (p : List Nat) (t : Tree), AllNodes P t → AllNodes P (modifyAt f t p)
  | [], t, ha => by
    rw [modifyAt_nil]
    exact hf t ha
  | a :: p, t, ha => by
    cases ha with
    | node hd hcs =>
      show AllNodes P (Tree.node _ _)
      refine AllNodes.node hd ?_
      intro bt hbt
      rcases List.mem_map.mp hbt with ⟨⟨b, w⟩, hmem, heq⟩
      by_cases hab : b = a
      · subst hab
        simp only [if_pos rfl] at heq
        subst heq
        exact AllNodes_modifyAt P f hf p w (hcs (b, w) hmem)
      · simp only [if_neg hab] at heq
        subst heq
        exact hcs (b, w) hmem

theorem AllNodes_newLeaf (P : NodeData → Prop) (rm q0 : Int)
    (h : P { n := 0, q := 0, qMax := rm, qStep := q0, terminal := false, inBeam := false }) :
    AllNodes P (newLeaf rm q0) :=
  AllNodes.node h (by intro bt hbt ; simp [newLeaf] at hbt)

theorem AllNodes_expandNode (P : NodeData → Prop) (rm : Int) (t : Tree)
    (acts : List (Nat × Int)) (ha : AllNodes P t)
    (hleaf : ∀ q0, P { n := 0, q := 0, qMax := rm, qStep := q0, terminal := false, inBeam := false }) :
    AllNodes P (t.expandNode rm acts) := by
  cases ha with
  | node hd hcs =>
    show AllNodes P (Tree.expandNode rm (.node _ _) acts)
    unfold Tree.expandNode
    simp only [Tree.children]
    split
    · refine AllNodes.node hd ?_
      intro bt hbt
      rcases List.mem_map.mp hbt with ⟨⟨b, r⟩, hmem, heq⟩
      subst heq
      exact AllNodes_newLeaf P rm r (hleaf r)
    · exact AllNodes.node hd hcs

theorem argmaxLowest_isSome (score : α → Frac) (id : α → Nat) :
    ∀ l : List α, l ≠ [] → (argmaxLowest score id l).isSome
  | [], h => absurd rfl h
  | x :: xs, _ => by
    simp only [argmaxLowest]
    cases hx : argmaxLowest score id xs with
    | none => rfl
    | some y =>
      show (if ((score x).ltv (score y)
          || (score x).eqv (score y) && decide (id y < id x)) = true
        then some y else some x).isSome = true
      by_cases hc : ((score x).ltv (score y)
          || (score x).eqv (score y) && decide (id y < id x)) = true
      · rw [if_pos hc]
        rfl
      · rw [if_neg hc]
        rfl

theorem argmax_int_spec (g : α → Int) (id : α → Nat) :
    ∀ (l : List α) (x : α),
      argmaxLowest (fun y => Frac.ofInt (g y)) id l = some x →
      x ∈ l ∧ ∀ y ∈ l, g y ≤ g x
  | [], x, h => by cases h
  | z :: zs, x, h => by
    simp only [argmaxLowest] at h
    cases hx : argmaxLowest (fun y => Frac.ofInt (g y)) id zs with
    | none =>
      rw [hx] at h
      have h2 : some z = some x := h
      have hzx : z = x := by injection h2
      subst hzx
      have hz : zs = [] := by
        by_contra hne
        have hs := argmaxLowest_isSome (fun y => Frac.ofInt (g y)) id zs hne
        rw [hx] at hs
        cases hs
      subst hz
      refine ⟨List.mem_singleton_self _, ?_⟩
      intro y hy
      have hy2 : y = z := by simpa using hy
      subst hy2
      exact le_refl _
    | some y =>
      rw [hx] at h
      have h2 : (if ((Frac.ofInt (g z)).ltv (Frac.ofInt (g y))
            || (Frac.ofInt (g z)).eqv (Frac.ofInt (g y)) && decide (id y < id z)) = true
          then some y else some z) = some x := h
      have hih := argmax_int_spec g id zs y hx
      by_cases hcond :
          ((Frac.ofInt (g z)).ltv (Frac.ofInt (g y))
            || (Frac.ofInt (g z)).eqv (Frac.ofInt (g y)) && decide (id y < id z)) = true
      · rw [if_pos hcond] at h2
        have hyx : y = x := by injection h2
        subst hyx
        refine ⟨List.mem_cons_of_mem _ hih.1, ?_⟩
        intro w hw
        rcases List.mem_cons.mp hw with hw1 | hw1
        · subst hw1
          rcases (Bool.or_eq_true _ _).mp hcond with hlt | heqv
          · simp only [Frac.ltv, Frac.ofInt, decide_eq_true_eq] at hlt
            omega
          · have he := (Bool.and_eq_true _ _).mp heqv
            have he1 := he.1
            simp only [Frac.eqv, Frac.ofInt, decide_eq_true_eq] at he1
            omega
        · exact hih.2 w hw1
      · rw [if_neg hcond] at h2
        have hzx : z = x := by injection h2
        subst hzx
        refine ⟨List.mem_cons_self _ _, ?_⟩
        intro w hw
        rcases List.mem_cons.mp hw with hw1 | hw1
        · subst hw1
          exact le_refl _
        · have hyw := hih.2 w hw1
          have hA : ¬ ((Frac.ofInt (g z)).ltv (Frac.ofInt (g y)) = true) := by
            intro hc
            exact hcond (by rw [hc] ; simp)
          simp only [Frac.ltv, Frac.ofInt, decide_eq_true_eq] at hA
          omega

theorem selectGreedy_spec (cs : List (Nat × Tree)) (a : Nat)
    (h : selectGreedy cs = some a) :
    ∃ u, (a, u) ∈ cs ∧ ∀ bt ∈ cs, bt.2.data.qStep ≤ u.data.qStep := by
  simp only [selectGreedy, Option.map_eq_some'] at h
  rcases h with ⟨x, hx, hxa⟩
  have hs := argmax_int_spec (fun bt => bt.2.data.qStep) (fun bt => bt.1) cs x hx
  subst hxa
  exact ⟨x.2, hs.1, fun bt hbt => hs.2 bt hbt⟩

theorem selectGreedy_isSome (cs : List (Nat × Tree)) (hne : cs ≠ []) :
    (selectGreedy cs).isSome := by
  cases hx : argmaxLowest (fun bt => Frac.ofInt bt.2.data.qStep) (fun bt => bt.1) cs with
  | none =>
    have hs := argmaxLowest_isSome (fun bt : Nat × Tree => Frac.ofInt bt.2.data.qStep)
      (fun bt => bt.1) cs hne
    rw [hx] at hs
    cases hs
  | some y =>
    simp [selectGreedy, hx]


theorem AllNodes_data (P : NodeData → Prop) (t : Tree) (h : AllNodes P t) : P t.data := by
  cases h with
  | node hd _ => exact hd

theorem AllNodes_setTerminalFalse (cfg : MCTSConfig) :
    ∀ u, AllNodes (fun d => d.terminal = false ∧ d.qMax = cfg.rewardMin) u →
      AllNodes (fun d => d.terminal = false ∧ d.qMax = cfg.rewardMin)
        (Tree.node { u.data with terminal := false } u.children) := by
  intro u hu
  cases hu with
  | node hd hcs => exact AllNodes.node ⟨rfl, hd.2⟩ hcs

theorem expandNode_children_ne (rm : Int) (t : Tree) (acts : List (Nat × Int))
    (hacts : acts ≠ []) : (t.expandNode rm acts).children ≠ [] := by
  cases t with
  | node d cs =>
    cases cs with
    | nil =>
      show (Tree.node d (acts.map fun ar => (ar.1, newLeaf rm ar.2))).children ≠ []
      simp only [Tree.children]
      intro hc
      exact hacts (List.map_eq_nil_iff.mp hc)
    | cons c cs0 =>
      exact fun hc => List.cons_ne_nil c cs0 hc

theorem greedyLoop_spec (cfg : MCTSConfig) (E : Env σ) (mu : σ → Nat) (s : σ)
    (H1 : ∀ (st : σ) (a : Nat), (E.step st a).2.2 = true ∨ mu (E.step st a).1 < mu st)
    (H2 : ∀ st : σ, E.legal st ≠ [])
    (H3 : ∀ u v, E.close u v = true → u = v) (er : Int) :
    ∀ (fuel : Nat) (t : Tree) (sim : Option σ) (path : List Nat)
      (bks : List Int) (chs : List (List (Nat × Int) × Nat)),
      AllNodes (fun d => d.terminal = false ∧ d.qMax = cfg.rewardMin) t →
      (getNode t path).isSome = true →
      mu s + 3 ≤ fuel + path.length →
      path.length ≤ mu s + 1 →
      (greedyLoop cfg E s s er fuel t sim path bks chs).ok = true
        ∧ (greedyLoop cfg E s s er fuel t sim path bks chs).backups
            = bks ++ [er + (replay E s (greedyLoop cfg E s s er fuel t sim path bks chs).finalPath).2.1]
        ∧ (∃ u, getNode (greedyLoop cfg E s s er fuel t sim path bks chs).tree
              (greedyLoop cfg E s s er fuel t sim path bks chs).finalPath = some u
            ∧ u.data.terminal = true
            ∧ u.data.qMax = max cfg.rewardMin
                (er + (replay E s (greedyLoop cfg E s s er fuel t sim path bks chs).finalPath).2.1))
        ∧ ∀ e ∈ (greedyLoop cfg E s s er fuel t sim path bks chs).choices,
            e ∈ chs ∨ GreedyChoiceOK e
  | 0, t, sim, path, bks, chs, hall, hsome, hA, hB => by
    exfalso
    omega
  | fuel + 1, t, sim, path, bks, chs, hall, hsome, hA, hB => by
    obtain ⟨nd, hget⟩ := Option.isSome_iff_exists.mp hsome
    have hnddata := AllNodes_data _ nd (AllNodes_getNode _ path t nd hall hget)
    have hndterm : nd.data.terminal = false := hnddata.1
    have hps := parsePath_start E s s sim path H3
    have hterm_eq : (parsePath E s s none path).terminal = (replay E s path).2.2 := rfl
    have htot_eq : (parsePath E s s none path).totalReward = (replay E s path).2.1 := rfl
    simp only [greedyLoop, hget, hndterm, Bool.false_eq_true, if_false, hps,
      hterm_eq, htot_eq]
    by_cases hrep : (replay E s path).2.2 = true
    · -- the replayed path is terminal: back up, then exit on the next check
      simp only [hrep, if_true]
      obtain ⟨f2, rfl⟩ : ∃ f2, fuel = f2 + 1 := ⟨fuel - 1, by omega⟩
      have hg1 : getNode (setTerminalAt t path true) path
          = some (Tree.node { nd.data with terminal := true } nd.children) := by
        rw [setTerminalAt, getNode_modifyAt, hget]
        rfl
      have hg2 : getNode (backupAt (er + (replay E s path).2.1)
            (setTerminalAt t path true) path) path
          = some (Tree.node
              (giveReward (er + (replay E s path).2.1) { nd.data with terminal := true })
              nd.children) := by
        rw [getNode_backupAt, hg1]
        rfl
      simp only [greedyLoop, hg2]
      rw [if_pos (show (Tree.node
          (giveReward (er + (replay E s path).2.1) { nd.data with terminal := true })
          nd.children).data.terminal = true from rfl)]
      refine ⟨rfl, rfl, ⟨_, hg2, rfl, ?_⟩, fun e he => Or.inl he⟩
      show max nd.data.qMax (er + (replay E s path).2.1)
        = max cfg.rewardMin (er + (replay E s path).2.1)
      rw [hnddata.2]
    · -- the replayed path is not terminal: expand if needed and descend
      rw [Bool.not_eq_true] at hrep
      simp only [hrep, Bool.false_eq_true, if_false]
      have hg1 : getNode (setTerminalAt t path false) path
          = some (Tree.node { nd.data with terminal := false } nd.children) := by
        rw [setTerminalAt, getNode_modifyAt, hget]
        rfl
      simp only [hg1]
      have hchild_ne : (Tree.expandNode cfg.rewardMin
          (Tree.node { nd.data with terminal := false } nd.children)
          ((E.legal (parsePath E s s none path).state).map
            (fun a => (a, E.logLik (parsePath E s s none path).simS a)))).children ≠ [] :=
        expandNode_children_ne cfg.rewardMin _ _
          (fun hc => H2 _ (List.map_eq_nil_iff.mp hc))
      obtain ⟨a, hsel⟩ := Option.isSome_iff_exists.mp (selectGreedy_isSome _ hchild_ne)
      simp only [hsel]
      obtain ⟨u, hau, hmax⟩ := selectGreedy_spec _ a hsel
      have hall1 : AllNodes (fun d => d.terminal = false ∧ d.qMax = cfg.rewardMin)
          (setTerminalAt t path false) :=
        AllNodes_modifyAt _ _ (AllNodes_setTerminalFalse cfg) path t hall
      have hallnd1 : AllNodes (fun d => d.terminal = false ∧ d.qMax = cfg.rewardMin)
          (Tree.node { nd.data with terminal := false } nd.children) :=
        AllNodes_getNode _ path _ _ hall1 hg1
      have hallndE : AllNodes (fun d => d.terminal = false ∧ d.qMax = cfg.rewardMin)
          (Tree.expandNode cfg.rewardMin
            (Tree.node { nd.data with terminal := false } nd.children)
            ((E.legal (parsePath E s s none path).state).map
              (fun a => (a, E.logLik (parsePath E s s none path).simS a)))) :=
        AllNodes_expandNode _ cfg.rewardMin _ _ hallnd1 (fun q0 => ⟨rfl, rfl⟩)
      have hallt2 : AllNodes (fun d => d.terminal = false ∧ d.qMax = cfg.rewardMin)
          (modifyAt (fun _ => Tree.expandNode cfg.rewardMin
              (Tree.node { nd.data with terminal := false } nd.children)
              ((E.legal (parsePath E s s none path).state).map
                (fun a => (a, E.logLik (parsePath E s s none path).simS a))))
            (setTerminalAt t path false) path) :=
        AllNodes_modifyAt _ _ (fun _ _ => hallndE) path _ hall1
      have hg2 : getNode (modifyAt (fun _ => Tree.expandNode cfg.rewardMin
              (Tree.node { nd.data with terminal := false } nd.children)
              ((E.legal (parsePath E s s none path).state).map
                (fun a => (a, E.logLik (parsePath E s s none path).simS a))))
            (setTerminalAt t path false) path) path
          = some (Tree.expandNode cfg.rewardMin
              (Tree.node { nd.data with terminal := false } nd.children)
              ((E.legal (parsePath E s s none path).state).map
                (fun a => (a, E.logLik (parsePath E s s none path).simS a)))) := by
        rw [getNode_modifyAt, hg1]
        rfl
      have hsome2 : (getNode (modifyAt (fun _ => Tree.expandNode cfg.rewardMin
              (Tree.node { nd.data with terminal := false } nd.children)
              ((E.legal (parsePath E s s none path).state).map
                (fun a => (a, E.logLik (parsePath E s s none path).simS a))))
            (setTerminalAt t path false) path) (path ++ [a])).isSome = true := by
        rw [getNode_append, hg2]
        exact lookupChild_isSome_of_mem a u _ hau
      have hm := replay_measure E mu H1 path s hrep
      have hA2 : mu s + 3 ≤ fuel + (path ++ [a]).length := by
        simp only [List.length_append, List.length_cons, List.length_nil]
        omega
      have hB2 : (path ++ [a]).length ≤ mu s + 1 := by
        simp only [List.length_append, List.length_cons, List.length_nil]
        omega
      have hIH := greedyLoop_spec cfg E mu s H1 H2 H3 er fuel
        (modifyAt (fun _ => Tree.expandNode cfg.rewardMin
            (Tree.node { nd.data with terminal := false } nd.children)
            ((E.legal (parsePath E s s none path).state).map
              (fun a => (a, E.logLik (parsePath E s s none path).simS a))))
          (setTerminalAt t path false) path)
        (some (parsePath E s s none path).simS) (path ++ [a]) bks
        (chs ++ [((Tree.expandNode cfg.rewardMin
            (Tree.node { nd.data with terminal := false } nd.children)
            ((E.legal (parsePath E s s none path).state).map
              (fun a => (a, E.logLik (parsePath E s s none path).simS a)))).children.map
                (fun bt => (bt.1, bt.2.data.qStep)), a)])
        hallt2 hsome2 hA2 hB2
      refine ⟨hIH.1, hIH.2.1, hIH.2.2.1, ?_⟩
      intro e he
      rcases hIH.2.2.2 e he with hin | hok
      · rcases List.mem_append.mp hin with h1 | h1
        · exact Or.inl h1
        · have he0 := List.mem_singleton.mp h1
          subst he0
          refine Or.inr ⟨u.data.qStep, List.mem_map.mpr ⟨(a, u), hau, rfl⟩, ?_⟩
          intro x hx
          rcases List.mem_map.mp hx with ⟨bt, hbt, rfl⟩
          exact hmax bt hbt
      · exact Or.inr hok


/-- C5: for every starting state of an environment whose steps strictly
decrease a termination measure until reporting done (the spec's replayable
clustering processes; the Python loop has no depth cap, so termination is
exactly this), with at least one legal action per state and an exact
approximate-equality check, greedy expansion from a fresh root terminates
normally (`ok = true`, given fuel at least measure + 3), produces a single
root-to-terminal descent path (the final node is marked terminal, exactly
one value is backed up), every recorded descent chooses a child of maximal
immediate step reward, and the backed-up value — also stored in `q_max`
whenever it is at least the configured `reward_min` floor — equals the
path's realized cumulative reward. -/
theorem c5_greedy_terminates (cfg : MCTSConfig) (E : Env σ) (mu : σ → Nat)
    (s : σ) (q0 : Int) (sim : Option σ) (fuel : Nat)
    (H1 : ∀ (st : σ) (a : Nat), (E.step st a).2.2 = true ∨ mu (E.step st a).1 < mu st)
    (H2 : ∀ st : σ, E.legal st ≠ [])
    (H3 : ∀ u v, E.close u v = true → u = v)
    (hfuel : mu s + 3 ≤ fuel) :
    (greedy cfg E s 0 fuel (newLeaf cfg.rewardMin q0) sim).ok = true
      ∧ (greedy cfg E s 0 fuel (newLeaf cfg.rewardMin q0) sim).backups
          = [(replay E s (greedy cfg E s 0 fuel (newLeaf cfg.rewardMin q0) sim).finalPath).2.1]
      ∧ (∃ u, getNode (greedy cfg E s 0 fuel (newLeaf cfg.rewardMin q0) sim).tree
            (greedy cfg E s 0 fuel (newLeaf cfg.rewardMin q0) sim).finalPath = some u
          ∧ u.data.terminal = true
          ∧ u.data.qMax = max cfg.rewardMin
              ((replay E s (greedy cfg E s 0 fuel (newLeaf cfg.rewardMin q0) sim).finalPath).2.1)
          ∧ (cfg.rewardMin
                ≤ (replay E s (greedy cfg E s 0 fuel (newLeaf cfg.rewardMin q0) sim).finalPath).2.1 →
              u.data.qMax
                = (replay E s (greedy cfg E s 0 fuel (newLeaf cfg.rewardMin q0) sim).finalPath).2.1))
      ∧ ∀ e ∈ (greedy cfg E s 0 fuel (newLeaf cfg.rewardMin q0) sim).choices,
          GreedyChoiceOK e := by
  have h := greedyLoop_spec cfg E mu s H1 H2 H3 0 fuel (newLeaf cfg.rewardMin q0) sim [] [] []
    (AllNodes_newLeaf _ _ _ ⟨rfl, rfl⟩) rfl (by simpa using hfuel) (by simp)
  simp only [greedy]
  obtain ⟨hok, hbk, ⟨u, hu, hterm, hqmax⟩, hch⟩ := h
  refine ⟨hok, ?_, ⟨u, hu, hterm, ?_, ?_⟩, ?_⟩
  · rw [hbk]
    simp
  · rw [hqmax, Int.zero_add]
  · intro hle
    rw [hqmax, Int.zero_add]
    exact max_eq_right hle
  · intro e he
    rcases hch e he with h1 | h1
    · simp at h1
    · exact h1

/-- C5 witness: a concrete two-step environment with measure `2 − s` and
three legal actions, run with fuel 5 from state 0. -/
theorem c5_witness :
    (∀ (st a : Nat), (wEnv.step st a).2.2 = true ∨ 2 - (wEnv.step st a).1 < 2 - st)
      ∧ (∀ st : Nat, wEnv.legal st ≠ [])
      ∧ (∀ u v : Nat, wEnv.close u v = true → u = v)
      ∧ (2 - 0) + 3 ≤ 5
      ∧ ((greedy wCfg wEnv 0 0 5 (newLeaf wCfg.rewardMin 0) none).ok = true
        ∧ (greedy wCfg wEnv 0 0 5 (newLeaf wCfg.rewardMin 0) none).backups
            = [(replay wEnv 0 (greedy wCfg wEnv 0 0 5 (newLeaf wCfg.rewardMin 0) none).finalPath).2.1]
        ∧ (∃ u, getNode (greedy wCfg wEnv 0 0 5 (newLeaf wCfg.rewardMin 0) none).tree
              (greedy wCfg wEnv 0 0 5 (newLeaf wCfg.rewardMin 0) none).finalPath = some u
            ∧ u.data.terminal = true
            ∧ u.data.qMax = max wCfg.rewardMin
                ((replay wEnv 0 (greedy wCfg wEnv 0 0 5 (newLeaf wCfg.rewardMin 0) none).finalPath).2.1)
            ∧ (wCfg.rewardMin
                  ≤ (replay wEnv 0 (greedy wCfg wEnv 0 0 5 (newLeaf wCfg.rewardMin 0) none).finalPath).2.1 →
                u.data.qMax
                  = (replay wEnv 0 (greedy wCfg wEnv 0 0 5 (newLeaf wCfg.rewardMin 0) none).finalPath).2.1))
        ∧ ∀ e ∈ (greedy wCfg wEnv 0 0 5 (newLeaf wCfg.rewardMin 0) none).choices,
            GreedyChoiceOK e) := by
  have h1 : ∀ (st a : Nat), (wEnv.step st a).2.2 = true ∨ 2 - (wEnv.step st a).1 < 2 - st := by
    intro st a
    by_cases h : 1 ≤ st
    · left
      exact decide_eq_true h
    · right
      have hst : st = 0 := by omega
      subst hst
      show (2 : Nat) - (0 + 1) < 2 - 0
      decide
  have h2 : ∀ st : Nat, wEnv.legal st ≠ [] := by
    intro st
    simp [wEnv]
  have h3 : ∀ u v : Nat, wEnv.close u v = true → u = v := by
    intro u v h
    simp only [wEnv] at h
    exact beq_iff_eq.mp h
  exact ⟨h1, h2, h3, by decide,
    c5_greedy_terminates wCfg wEnv (fun st => 2 - st) 0 0 none 5 h1 h2 h3 (by decide)⟩


/-! ### C6: beam-search invariants -/

theorem insertDescBy_perm (key : α → Int) (x : α) :
    ∀ l : List α, (insertDescBy key x l).Perm (x :: l)
  | [] => List.Perm.refl _
  | y :: ys => by
    simp only [insertDescBy]
    split
    · exact List.Perm.refl _
    · exact ((insertDescBy_perm key x ys).cons y).trans (List.Perm.swap x y ys)

theorem sortDescBy_perm (key : α → Int) :
    ∀ l : List α, (sortDescBy key l).Perm l
  | [] => List.Perm.refl _
  | x :: xs =>
    (insertDescBy_perm key x (sortDescBy key xs)).trans
      ((sortDescBy_perm key xs).cons x)

theorem insertDescBy_sorted (key : α → Int) (x : α) :
    ∀ l : List α, List.Pairwise (fun a b => key b ≤ key a) l →
      List.Pairwise (fun a b => key b ≤ key a) (insertDescBy key x l)
  | [], _ => List.pairwise_singleton _ _
  | y :: ys, h => by
    simp only [insertDescBy]
    rcases List.pairwise_cons.mp h with ⟨hy, hys⟩
    split
    · rename_i hlt
      refine List.pairwise_cons.mpr ⟨?_, h⟩
      intro z hz
      rcases List.mem_cons.mp hz with hz1 | hz1
      · subst hz1
        omega
      · have := hy z hz1
        omega
    · rename_i hge
      refine List.pairwise_cons.mpr ⟨?_, insertDescBy_sorted key x ys hys⟩
      intro z hz
      have hz2 := (insertDescBy_perm key x ys).mem_iff.mp hz
      rcases List.mem_cons.mp hz2 with hz1 | hz1
      · subst hz1
        omega
      · exact hy z hz1

theorem sortDescBy_sorted (key : α → Int) :
    ∀ l : List α, List.Pairwise (fun a b => key b ≤ key a) (sortDescBy key l)
  | [] => List.Pairwise.nil
  | x :: xs => insertDescBy_sorted key x _ (sortDescBy_sorted key xs)

theorem insertAscBy_perm (key : α → Nat) (x : α) :
    ∀ l : List α, (insertAscBy key x l).Perm (x :: l)
  | [] => List.Perm.refl _
  | y :: ys => by
    simp only [insertAscBy]
    split
    · exact List.Perm.refl _
    · exact ((insertAscBy_perm key x ys).cons y).trans (List.Perm.swap x y ys)

theorem sortAscBy_perm (key : α → Nat) :
    ∀ l : List α, (sortAscBy key l).Perm l
  | [] => List.Perm.refl _
  | x :: xs =>
    (insertAscBy_perm key x (sortAscBy key xs)).trans
      ((sortAscBy_perm key xs).cons x)

theorem selectBeamSearch_length (bs : Nat) (cs : List (Nat × Tree)) :
    (selectBeamSearch bs cs).length ≤ bs := by
  simp only [selectBeamSearch]
  exact (List.length_take_le _ _)

theorem selectBeamSearch_nodup (bs : Nat) (cs : List (Nat × Tree))
    (h : (cs.map (fun bt => bt.1)).Nodup) : (selectBeamSearch bs cs).Nodup := by
  have hfil : ((cs.filter fun bt => !bt.2.data.inBeam).map (fun bt => bt.1)).Nodup :=
    h.sublist ((List.filter_sublist _).map _)
  have hperm : ((sortDescBy (fun bt => bt.2.data.qStep)
        (sortAscBy (fun bt => bt.1) (cs.filter fun bt => !bt.2.data.inBeam))).map
          (fun bt => bt.1)).Perm
      ((cs.filter fun bt => !bt.2.data.inBeam).map (fun bt => bt.1)) :=
    ((sortDescBy_perm _ _).trans (sortAscBy_perm _ _)).map _
  exact (hperm.nodup_iff.mpr hfil).sublist (List.take_sublist _ _)

theorem selectBeamSearch_mem (bs : Nat) (cs : List (Nat × Tree)) (a : Nat)
    (h : a ∈ selectBeamSearch bs cs) : ∃ u, (a, u) ∈ cs := by
  simp only [selectBeamSearch] at h
  have h2 := List.mem_of_mem_take h
  rcases List.mem_map.mp h2 with ⟨bt, hbt, hfst⟩
  have h3 := ((sortDescBy_perm _ _).trans (sortAscBy_perm _ _)).mem_iff.mp hbt
  have h4 := List.mem_of_mem_filter h3
  subst hfst
  exact ⟨bt.2, h4⟩


theorem keys_map_ite (g : Tree → Tree) (a : Nat) (cs : List (Nat × Tree)) :
    ((cs.map fun bt => if bt.1 = a then (bt.1, g bt.2) else bt).map (fun bt => bt.1))
      = cs.map (fun bt => bt.1) := by
  rw [List.map_map]
  refine List.map_congr_left ?_
  intro bt _
  by_cases h : bt.1 = a
  · simp [h]
  · simp [h]

theorem KeysNodup_getNode :
    ∀ (p : List Nat) (t u : Tree), KeysNodup t → getNode t p = some u → KeysNodup u
  | [], t, u, hk, h => by
    rw [getNode_nil] at h
    cases h
    exact hk
  | a :: p, t, u, hk, h => by
    cases hk with
    | node hd hcs =>
      simp only [getNode, Tree.children] at h
      cases hl : lookupChild _ a with
      | none => rw [hl] at h ; cases h
      | some c =>
        rw [hl] at h
        exact KeysNodup_getNode p c u (hcs (a, c) (lookupChild_mem a _ c hl)) h

theorem KeysNodup_modifyAt (f : Tree → Tree)
    (hf : ∀ u, KeysNodup u → KeysNodup (f u)) :
    ∀ (p : List Nat) (t : Tree), KeysNodup t → KeysNodup (modifyAt f t p)
  | [], t, hk => by
    rw [modifyAt_nil]
    exact hf t hk
  | a :: p, t, hk => by
    cases hk with
    | node hd hcs =>
      show KeysNodup (Tree.node _ _)
      refine KeysNodup.node ?_ ?_
      · rw [keys_map_ite (fun c => modifyAt f c p) a]
        exact hd
      · intro bt hbt
        rcases List.mem_map.mp hbt with ⟨⟨b, w⟩, hmem, heq⟩
        by_cases hab : b = a
        · subst hab
          simp only [if_pos rfl] at heq
          subst heq
          exact KeysNodup_modifyAt f hf p w (hcs (b, w) hmem)
        · simp only [if_neg hab] at heq
          subst heq
          exact hcs (b, w) hmem

theorem KeysNodup_backupAt (v : Int) :
    ∀ (p : List Nat) (t : Tree), KeysNodup t → KeysNodup (backupAt v t p)
  | [], t, hk => by
    rw [backupAt_nil]
    cases hk with
    | node hd hcs => exact KeysNodup.node hd hcs
  | a :: p, t, hk => by
    cases hk with
    | node hd hcs =>
      show KeysNodup (Tree.node _ _)
      refine KeysNodup.node ?_ ?_
      · rw [keys_map_ite (fun c => backupAt v c p) a]
        exact hd
      · intro bt hbt
        rcases List.mem_map.mp hbt with ⟨⟨b, w⟩, hmem, heq⟩
        by_cases hab : b = a
        · subst hab
          simp only [if_pos rfl] at heq
          subst heq
          exact KeysNodup_backupAt v p w (hcs (b, w) hmem)
        · simp only [if_neg hab] at heq
          subst heq
          exact hcs (b, w) hmem

theorem KeysNodup_newLeaf (rm q0 : Int) : KeysNodup (newLeaf rm q0) :=
  KeysNodup.node (by simp [newLeaf]) (by intro bt hbt ; simp [newLeaf] at hbt)

theorem KeysNodup_expandNode (rm : Int) (t : Tree) (acts : List (Nat × Int))
    (hk : KeysNodup t) (ha : (acts.map (fun ar => ar.1)).Nodup) :
    KeysNodup (t.expandNode rm acts) := by
  cases hk with
  | node hd hcs =>
    show KeysNodup (Tree.expandNode rm (.node _ _) acts)
    unfold Tree.expandNode
    simp only [Tree.children]
    split
    · refine KeysNodup.node ?_ ?_
      · rw [List.map_map]
        exact ha
      · intro bt hbt
        rcases List.mem_map.mp hbt with ⟨⟨b, r⟩, _, heq⟩
        subst heq
        exact KeysNodup_newLeaf rm r
    · exact KeysNodup.node hd hcs

theorem KeysNodup_children (t : Tree) (hk : KeysNodup t) :
    (t.children.map (fun bt => bt.1)).Nodup := by
  cases hk with
  | node hd _ => exact hd


theorem KeysNodup_setTerminalAt (t : Tree) (p : List Nat) (b : Bool)
    (hk : KeysNodup t) : KeysNodup (setTerminalAt t p b) :=
  KeysNodup_modifyAt _ (fun u hu => by
    cases hu with
    | node hd hcs => exact KeysNodup.node hd hcs) p t hk

theorem KeysNodup_setInBeamAt (t : Tree) (p : List Nat)
    (hk : KeysNodup t) : KeysNodup (setInBeamAt t p) :=
  KeysNodup_modifyAt _ (fun u hu => by
    cases hu with
    | node hd hcs => exact KeysNodup.node hd hcs) p t hk

theorem beamPush_facts (bs k : Nat) (donePaths : List (List Nat))
    (acc : BeamAcc σ) (e : Int × List Nat) (tot : Int) (cs : List (Nat × Tree))
    (hkeys : (cs.map (fun bt => bt.1)).Nodup)
    (hlen : e.2.length = k)
    (hdlen : ∀ p ∈ donePaths, p.length = k)
    (hnotdone : e.2 ∉ donePaths)
    (hcon : ∀ c ∈ acc.contribs, c ≤ bs)
    (hpar : ∀ p ∈ acc.next.map (fun x => x.2), ∃ q a, p = q ++ [a] ∧ q ∈ donePaths)
    (hnodup : (acc.next.map (fun x => x.2)).Nodup) :
    (∀ c ∈ acc.contribs ++ [(selectBeamSearch bs cs).length], c ≤ bs)
      ∧ (∀ p ∈ ((acc.next ++ (selectBeamSearch bs cs).map
            (fun a => (tot + qStepOf cs a, e.2 ++ [a]))).map (fun x => x.2)),
          ∃ q a, p = q ++ [a] ∧ q ∈ donePaths ++ [e.2])
      ∧ ((acc.next ++ (selectBeamSearch bs cs).map
            (fun a => (tot + qStepOf cs a, e.2 ++ [a]))).map (fun x => x.2)).Nodup := by
  refine ⟨?_, ?_, ?_⟩
  · intro c hc
    rcases List.mem_append.mp hc with h1 | h1
    · exact hcon c h1
    · have h2 := List.mem_singleton.mp h1
      subst h2
      exact selectBeamSearch_length bs _
  · intro p hp
    rw [List.map_append, List.map_map] at hp
    rcases List.mem_append.mp hp with h1 | h1
    · rcases hpar p h1 with ⟨q, a, h2, h3⟩
      exact ⟨q, a, h2, List.mem_append_left _ h3⟩
    · rcases List.mem_map.mp h1 with ⟨a, ha, heqp⟩
      refine ⟨e.2, a, ?_, List.mem_append_right _ (List.mem_singleton_self _)⟩
      rw [← heqp]
      rfl
  · rw [List.map_append, List.map_map]
    refine List.Nodup.append hnodup ?_ ?_
    · refine List.Nodup.map ?_ (selectBeamSearch_nodup bs cs hkeys)
      intro a b hab
      have hab2 : e.2 ++ [a] = e.2 ++ [b] := hab
      have hab3 := List.append_cancel_left hab2
      simpa using hab3
    · intro p hp1 hp2
      rcases hpar p hp1 with ⟨q, b, hq1, hq2⟩
      rcases List.mem_map.mp hp2 with ⟨a, ha, heqp⟩
      have heqp2 : e.2 ++ [a] = p := heqp
      rw [hq1] at heqp2
      have hlq : e.2.length = q.length := by
        rw [hlen, hdlen q hq2]
      have hq3 := (List.append_inj heqp2 hlq).1
      rw [← hq3] at hq2
      exact hnotdone hq2

theorem processEntry_step (cfg : MCTSConfig) (E : Env σ) (s : σ) (er : Int)
    (bs k : Nat) (HL : ∀ st : σ, (E.legal st).Nodup)
    (donePaths : List (List Nat)) (acc : BeamAcc σ) (e : Int × List Nat)
    (hk : KeysNodup acc.tree)
    (hlen : e.2.length = k)
    (hdlen : ∀ p ∈ donePaths, p.length = k)
    (hnotdone : e.2 ∉ donePaths)
    (hcon : ∀ c ∈ acc.contribs, c ≤ bs)
    (hpar : ∀ p ∈ acc.next.map (fun x => x.2), ∃ q a, p = q ++ [a] ∧ q ∈ donePaths)
    (hnodup : (acc.next.map (fun x => x.2)).Nodup) :
    KeysNodup (processEntry cfg E s s er bs acc e).tree
      ∧ (∀ c ∈ (processEntry cfg E s s er bs acc e).contribs, c ≤ bs)
      ∧ (∀ p ∈ ((processEntry cfg E s s er bs acc e).next).map (fun x => x.2),
          ∃ q a, p = q ++ [a] ∧ q ∈ donePaths ++ [e.2])
      ∧ (((processEntry cfg E s s er bs acc e).next).map (fun x => x.2)).Nodup := by
  have hcon0 : ∀ c ∈ acc.contribs ++ [0], c ≤ bs := by
    intro c hc
    rcases List.mem_append.mp hc with h1 | h1
    · exact hcon c h1
    · have h2 := List.mem_singleton.mp h1
      omega
  have hparW : ∀ p ∈ acc.next.map (fun x => x.2),
      ∃ q a, p = q ++ [a] ∧ q ∈ donePaths ++ [e.2] := by
    intro p hp
    rcases hpar p hp with ⟨q, a, h1, h2⟩
    exact ⟨q, a, h1, List.mem_append_left _ h2⟩
  simp only [processEntry]
  split
  · exact ⟨hk, hcon0, hparW, hnodup⟩
  · have hk1 : KeysNodup (setTerminalAt acc.tree e.2
        (parsePath E s s acc.simS e.2).terminal) :=
      KeysNodup_setTerminalAt _ _ _ hk
    split
    · exact ⟨hk1, hcon0, hparW, hnodup⟩
    · rename_i nd1 heq1
      have hknd1 : KeysNodup nd1 := KeysNodup_getNode e.2 _ nd1 hk1 heq1
      by_cases hterm : (parsePath E s s acc.simS e.2).terminal = true
      · simp only [hterm, if_true]
        have hk1t : KeysNodup (setTerminalAt acc.tree e.2 true) := by
          rw [← hterm]; exact hk1
        have hk2 : KeysNodup (modifyAt (fun _ => nd1)
            (setTerminalAt acc.tree e.2 true) e.2) :=
          KeysNodup_modifyAt _ (fun _ _ => hknd1) e.2 _ hk1t
        have hk3 : KeysNodup (backupAt (er + (parsePath E s s acc.simS e.2).totalReward)
            (modifyAt (fun _ => nd1)
              (setTerminalAt acc.tree e.2 true) e.2) e.2) :=
          KeysNodup_backupAt _ e.2 _ hk2
        split
        · exact ⟨hk3, hcon0, hparW, hnodup⟩
        · have hf := beamPush_facts (σ := σ) bs k donePaths acc e
            (parsePath E s s acc.simS e.2).totalReward nd1.children
            (KeysNodup_children nd1 hknd1) hlen hdlen hnotdone hcon hpar hnodup
          exact ⟨KeysNodup_setInBeamAt _ e.2 hk3, hf.1, hf.2.1, hf.2.2⟩
      · rw [Bool.not_eq_true] at hterm
        simp only [hterm, Bool.false_eq_true, if_false]
        have hkndE : KeysNodup (nd1.expandNode cfg.rewardMin
            ((E.legal (parsePath E s s acc.simS e.2).state).map
              (fun a => (a, E.logLik (parsePath E s s acc.simS e.2).simS a)))) := by
          refine KeysNodup_expandNode cfg.rewardMin nd1 _ hknd1 ?_
          rw [List.map_map]
          have h0 : ((fun ar : Nat × Int => ar.1) ∘
              fun a => (a, E.logLik (parsePath E s s acc.simS e.2).simS a)) =
              fun a : Nat => a := rfl
          rw [h0, List.map_id']
          exact HL (parsePath E s s acc.simS e.2).state
        have hk2 : KeysNodup (modifyAt (fun _ => nd1.expandNode cfg.rewardMin
            ((E.legal (parsePath E s s acc.simS e.2).state).map
              (fun a => (a, E.logLik (parsePath E s s acc.simS e.2).simS a))))
            (setTerminalAt acc.tree e.2 false) e.2) :=
          KeysNodup_modifyAt _ (fun _ _ => hkndE) e.2 _ (KeysNodup_setTerminalAt _ _ _ hk)
        split
        · exact ⟨hk2, hcon0, hparW, hnodup⟩
        · have hf := beamPush_facts (σ := σ) bs k donePaths acc e
            (parsePath E s s acc.simS e.2).totalReward
            (nd1.expandNode cfg.rewardMin
              ((E.legal (parsePath E s s acc.simS e.2).state).map
                (fun a => (a, E.logLik (parsePath E s s acc.simS e.2).simS a)))).children
            (KeysNodup_children _ hkndE) hlen hdlen hnotdone hcon hpar hnodup
          exact ⟨KeysNodup_setInBeamAt _ e.2 hk2, hf.1, hf.2.1, hf.2.2⟩


/-- Folding one beam round (`for i, (_, node) in enumerate(beam)`, lines
355-389) over a frontier of pairwise-distinct length-`k` paths preserves
key-uniqueness of the tree, keeps every recorded contribution count at most
the beam width, and produces a next frontier whose paths are pairwise
distinct one-step extensions of processed paths. -/
theorem beamFold_spec (cfg : MCTSConfig) (E : Env σ) (s : σ) (er : Int)
    (bs k : Nat) (HL : ∀ st : σ, (E.legal st).Nodup) :
    ∀ (todo : List (Int × List Nat)) (donePaths : List (List Nat)) (acc : BeamAcc σ),
    KeysNodup acc.tree →
    (∀ p ∈ todo.map (fun x => x.2), p.length = k) →
    (todo.map (fun x => x.2)).Nodup →
    (∀ p ∈ todo.map (fun x => x.2), p ∉ donePaths) →
    (∀ p ∈ donePaths, p.length = k) →
    (∀ c ∈ acc.contribs, c ≤ bs) →
    (∀ p ∈ acc.next.map (fun x => x.2), ∃ q a, p = q ++ [a] ∧ q ∈ donePaths) →
    ((acc.next.map (fun x => x.2)).Nodup) →
    KeysNodup (todo.foldl (processEntry cfg E s s er bs) acc).tree
      ∧ (∀ c ∈ (todo.foldl (processEntry cfg E s s er bs) acc).contribs, c ≤ bs)
      ∧ (∀ p ∈ ((todo.foldl (processEntry cfg E s s er bs) acc).next).map (fun x => x.2),
          ∃ q a, p = q ++ [a] ∧ q ∈ donePaths ++ todo.map (fun x => x.2))
      ∧ (((todo.foldl (processEntry cfg E s s er bs) acc).next).map (fun x => x.2)).Nodup := by
  intro todo
  induction todo with
  | nil =>
    intro donePaths acc hk _ _ _ _ hcon hpar hnodup
    simp only [List.foldl_nil, List.map_nil, List.append_nil]
    exact ⟨hk, hcon, hpar, hnodup⟩
  | cons e rest ih =>
    intro donePaths acc hk htlen htnodup hdisj hdlen hcon hpar hnodup
    simp only [List.map_cons] at htlen htnodup hdisj
    have hstep := processEntry_step cfg E s er bs k HL donePaths acc e hk
      (htlen e.2 (List.mem_cons_self _ _)) hdlen (hdisj e.2 (List.mem_cons_self _ _))
      hcon hpar hnodup
    obtain ⟨hk1, hcon1, hpar1, hnodup1⟩ := hstep
    obtain ⟨hhead, htail⟩ := List.nodup_cons.mp htnodup
    have hIH := ih (donePaths ++ [e.2]) (processEntry cfg E s s er bs acc e) hk1
      (fun p hp => htlen p (List.mem_cons_of_mem _ hp))
      htail
      (fun p hp hmem => by
        rcases List.mem_append.mp hmem with h1 | h1
        · exact hdisj p (List.mem_cons_of_mem _ hp) h1
        · have h2 := List.mem_singleton.mp h1
          exact hhead (h2 ▸ hp))
      (fun p hp => by
        rcases List.mem_append.mp hp with h1 | h1
        · exact hdlen p h1
        · have h2 := List.mem_singleton.mp h1
          subst h2
          exact htlen e.2 (List.mem_cons_self _ _))
      hcon1 hpar1 hnodup1
    simp only [List.append_assoc, List.singleton_append] at hIH
    simp only [List.foldl_cons, List.map_cons]
    exact hIH



/-- Every entry of the retained top slice of a round's next frontier is
drawn from the raw next frontier and dominates (by cumulative reward) every
entry that was dropped. -/
theorem kept_facts (bs : Nat) (next : List (Int × List Nat)) :
    ∀ x ∈ (sortDescBy (fun v => v.1) next).take bs,
      x ∈ next ∧ ∀ y ∈ next,
        y ∈ (sortDescBy (fun v => v.1) next).take bs ∨ y.1 ≤ x.1 := by
  intro x hx
  have hxs : x ∈ sortDescBy (fun v => v.1) next := List.mem_of_mem_take hx
  refine ⟨(sortDescBy_perm _ next).subset hxs, ?_⟩
  intro y hy
  have hys : y ∈ sortDescBy (fun v => v.1) next :=
    ((sortDescBy_perm _ next).symm).subset hy
  rw [← List.take_append_drop bs (sortDescBy (fun v => v.1) next)] at hys
  rcases List.mem_append.mp hys with h1 | h1
  · exact Or.inl h1
  · right
    have hso := sortDescBy_sorted (fun v => v.1) next
    rw [← List.take_append_drop bs (sortDescBy (fun v => v.1) next)] at hso
    obtain ⟨-, -, hcross⟩ := List.pairwise_append.mp hso
    exact hcross x hx y h1

/-- Taking the top slice of the sorted next frontier preserves
pairwise-distinctness of the frontier paths. -/
theorem kept_nodup (bs : Nat) (next : List (Int × List Nat))
    (h : (next.map (fun x => x.2)).Nodup) :
    (((sortDescBy (fun x => x.1) next).take bs).map (fun x => x.2)).Nodup := by
  have hperm : ((sortDescBy (fun x => x.1) next).map (fun x => x.2)).Perm
      (next.map (fun x => x.2)) := (sortDescBy_perm _ next).map _
  have hsort : ((sortDescBy (fun x => x.1) next).map (fun x => x.2)).Nodup :=
    hperm.nodup_iff.mpr h
  rw [List.map_take]
  exact List.Nodup.sublist (List.take_sublist _ _) hsort

/-- Invariant of the `while beam or next_beam` loop (lines 354-394), at
round depth `k`: if the current frontier holds pairwise-distinct length-`k`
paths and every previously processed path is shorter than `k`, then across
the whole invocation no path is processed twice, every round's bookkeeping
satisfies `TraceOK`, and a `true` exit flag means both frontiers were
empty. -/

theorem beamLoop_spec (cfg : MCTSConfig) (E : Env σ) (s : σ) (er : Int)
    (bs : Nat) (HL : ∀ st : σ, (E.legal st).Nodup) :
    ∀ (fuel k : Nat) (t : Tree) (sim : Option σ) (beam : List (Int × List Nat))
      (trace : List RoundRecord),
    KeysNodup t →
    (∀ p ∈ beam.map (fun x => x.2), p.length = k) →
    (beam.map (fun x => x.2)).Nodup →
    (∀ p ∈ (trace.map RoundRecord.paths).flatten, p.length < k) →
    ((trace.map RoundRecord.paths).flatten).Nodup →
    TraceOK bs trace →
    (((beamLoop cfg E s s er bs fuel t sim beam [] trace).trace.map
        RoundRecord.paths).flatten).Nodup
      ∧ TraceOK bs (beamLoop cfg E s s er bs fuel t sim beam [] trace).trace
      ∧ ((beamLoop cfg E s s er bs fuel t sim beam [] trace).ok = true →
          (beamLoop cfg E s s er bs fuel t sim beam [] trace).beamExit = []
            ∧ (beamLoop cfg E s s er bs fuel t sim beam [] trace).nextExit = []) := by
  intro fuel
  induction fuel with
  | zero =>
    intro k t sim beam trace hk hblen hbnodup htlt htnodup htOK
    exact ⟨htnodup, htOK, fun h => nomatch h⟩
  | succ fuel ih =>
    intro k t sim beam trace hk hblen hbnodup htlt htnodup htOK
    by_cases hb : beam.isEmpty = true
    · have hbeq : beam = [] := by
        cases beam with
        | nil => rfl
        | cons a l => simp [List.isEmpty] at hb
      subst hbeq
      exact ⟨htnodup, htOK, fun _ => ⟨rfl, rfl⟩⟩
    · have hfold := beamFold_spec cfg E s er bs k HL beam []
        ⟨t, sim, [], [], []⟩ hk hblen hbnodup
        (fun p _ => List.not_mem_nil p)
        (fun p hp => absurd hp (List.not_mem_nil p))
        (fun c hc => absurd hc (List.not_mem_nil c))
        (fun p hp => absurd hp (by simp))
        (by simp)
      obtain ⟨hkacc, hconacc, hparacc, hnodupacc⟩ := hfold
      simp only [List.nil_append] at hparacc
      simp only [beamLoop]
      rw [if_neg (by simp [hb])]
      generalize hA : beam.foldl (processEntry cfg E s s er bs)
        (⟨t, sim, [], [], []⟩ : BeamAcc σ) = A at hkacc hconacc hparacc hnodupacc ⊢
      generalize hK : (sortDescBy (fun x => x.1) A.next).take bs = K
      have hKlen : ∀ p ∈ K.map (fun x => x.2), p.length = k + 1 := by
        intro p hp
        rcases List.mem_map.mp hp with ⟨x, hx, hx2⟩
        rw [← hK] at hx
        have hxnext := (kept_facts bs A.next x hx).1
        rcases hparacc x.2 (List.mem_map.mpr ⟨x, hxnext, rfl⟩) with ⟨q, a, hq1, hq2⟩
        rw [← hx2, hq1, List.length_append, hblen q hq2]
        rfl
      have hKnodup : (K.map (fun x => x.2)).Nodup := by
        rw [← hK]
        exact kept_nodup bs A.next hnodupacc
      have hKfacts : ∀ x ∈ K, x ∈ A.next ∧ ∀ y ∈ A.next, y ∈ K ∨ y.1 ≤ x.1 := by
        rw [← hK]
        exact kept_facts bs A.next
      have hjoin : (((trace ++ [RoundRecord.mk (beam.map (fun x => x.2)) A.contribs A.next K]).map
          RoundRecord.paths).flatten)
          = (trace.map RoundRecord.paths).flatten ++ beam.map (fun x => x.2) := by
        simp
      have htlt2 : ∀ p ∈ (((trace ++ [RoundRecord.mk (beam.map (fun x => x.2)) A.contribs A.next
          K]).map RoundRecord.paths).flatten), p.length < k + 1 := by
        rw [hjoin]
        intro p hp
        rcases List.mem_append.mp hp with h1 | h1
        · exact Nat.lt_succ_of_lt (htlt p h1)
        · rw [hblen p h1]
          exact Nat.lt_succ_self k
      have htnodup2 : ((((trace ++ [RoundRecord.mk (beam.map (fun x => x.2)) A.contribs A.next
          K]).map RoundRecord.paths).flatten)).Nodup := by
        rw [hjoin]
        refine List.Nodup.append htnodup hbnodup ?_
        intro p h1 h2
        have h3 := htlt p h1
        rw [hblen p h2] at h3
        omega
      have htOK2 : TraceOK bs (trace ++ [RoundRecord.mk (beam.map (fun x => x.2))
          A.contribs A.next K]) := by
        intro rec hrec
        rcases List.mem_append.mp hrec with h1 | h1
        · exact htOK rec h1
        · have h2 := List.mem_singleton.mp h1
          subst h2
          refine ⟨hconacc, hK.symm, ?_, hKfacts⟩
          rw [← hK]
          exact List.length_take_le _ _
      exact ih (k + 1) A.tree A.simS K
        (trace ++ [RoundRecord.mk (beam.map (fun x => x.2)) A.contribs A.next K])
        hkacc hKlen hKnodup htlt2 htnodup2 htOK2



/-- C6: during one invocation of `_beam_search` on a tree with
pairwise-distinct child keys and an environment enumerating
pairwise-distinct legal actions, (i) each tree node — identified by its
path — is processed at most once (the concatenation of the per-round
processed-path lists has no duplicate), (ii) no node contributes more than
`beam_size` children to the next frontier in any round and after each round
exactly the globally highest-cumulative-reward `beam_size` next-frontier
entries are retained (`TraceOK`), and (iii) the loop terminates with a
`true` flag only when both the current and the next frontier are empty. -/
theorem c6_beam_invariants (cfg : MCTSConfig) (E : Env σ) (s : σ) (er : Int)
    (bs fuel : Nat) (t : Tree) (sim : Option σ)
    (HL : ∀ st : σ, (E.legal st).Nodup) (hk : KeysNodup t) :
    (((beamSearch cfg E s er bs fuel t sim).trace.map RoundRecord.paths).flatten).Nodup
      ∧ TraceOK bs (beamSearch cfg E s er bs fuel t sim).trace
      ∧ ((beamSearch cfg E s er bs fuel t sim).ok = true →
          (beamSearch cfg E s er bs fuel t sim).beamExit = []
            ∧ (beamSearch cfg E s er bs fuel t sim).nextExit = []) := by
  simp only [beamSearch]
  refine beamLoop_spec cfg E s er bs HL fuel 0 t sim [(er, [])] [] hk ?_ ?_ ?_ ?_ ?_
  · intro p hp
    simp only [List.map_cons, List.map_nil, List.mem_singleton] at hp
    subst hp
    rfl
  · simp
  · intro p hp
    simp at hp
  · simp
  · intro rec hrec
    exact absurd hrec (List.not_mem_nil rec)

/-- C6 witness: the invariants evaluated on a full beam-search run on the
concrete two-step environment from the fresh root, beam width 2. -/
theorem c6_witness :
    (((beamSearch wCfg wEnv 0 0 2 8 wRoot none).trace.map
        RoundRecord.paths).flatten).Nodup
      ∧ TraceOK 2 (beamSearch wCfg wEnv 0 0 2 8 wRoot none).trace
      ∧ ((beamSearch wCfg wEnv 0 0 2 8 wRoot none).ok = true →
          (beamSearch wCfg wEnv 0 0 2 8 wRoot none).beamExit = []
            ∧ (beamSearch wCfg wEnv 0 0 2 8 wRoot none).nextExit = []) :=
  c6_beam_invariants wCfg wEnv 0 0 2 8 wRoot none
    (fun st => by show ([0, 1, 2] : List Nat).Nodup; decide)
    (KeysNodup_newLeaf (-200) 0)

end GinkgoRL
